import Mathlib

set_option maxRecDepth 10000

/-!
Shallow embedding of the tracking-pose decoder of `openpifpaf_tracker`
(`openpifpaf_tracker/decoder/tracking_pose.py`), together with the parts of
its data model that the package's design document specifies for the files
that surround it (`TrackAnnotation`, the track scoring and viability
policies, and the occupancy grid of the generic decoder library).

Conventions used throughout:
* machine floats are modelled as rationals,
* numpy arrays of shape `(K, 3)` are lists of rows `(x, y, v)` with `v` the
  confidence, arrays of shape `(K,)` are lists of rationals,
* in-place mutation is modelled by returning the updated value,
* fallible code paths (a failing dict lookup) return `Option`.
-/

/-- One keypoint row `(x, y, confidence)` of a pose array of shape `(K, 3)`. -/
abbrev Row : Type := ℚ × ℚ × ℚ

/-- A single-frame pose: the `data` array (one row per keypoint) and the
per-keypoint `joint_scales`, as carried by `openpifpaf.Annotation`. -/
structure Pose where
  data : List Row
  joint_scales : List ℚ
deriving DecidableEq

/-- A multi-frame tracking pose, as produced by the pose generator or by the
seeding loop of `TrackingPose.__call__`.  The sentinel `id_ = -1` is the
"unassigned" state (`getattr(tracking_ann, 'id_', -1)` in the source). -/
structure TrackingAnn where
  id_ : ℤ
  data : List Row
  joint_scales : List ℚ
deriving DecidableEq

/-- Modelled from the spec: a Track Annotation (the file
`track_annotation.py` is not among the given sources) — an identity-tagged,
time-indexed sequence of poses with strictly increasing frame numbers. -/
structure Track where
  id_ : ℤ
  frame_pose : List (ℤ × Pose)
deriving DecidableEq

/-- Modelled from the spec: `TrackAnnotation.pose(frame_number)` — exact
lookup of the recorded pose for a frame, scanning from the most recent
entry; `none` when the track has no pose at that exact frame. -/
def trackPose (t : Track) (fn : ℤ) : Option Pose :=
  (t.frame_pose.reverse.find? (fun e => e.1 == fn)).map (fun e => e.2)

/-- Replace the recorded pose at frame `fn`.  Frame numbers are strictly
increasing, so at most one entry matches; this models in-place mutation of
the array object returned by `pose()`. -/
def updatePoseAt (t : Track) (fn : ℤ) (p : Pose) : Track :=
  ⟨t.id_, t.frame_pose.map (fun e => if e.1 = fn then (e.1, p) else e)⟩

/-- Sum of the keypoint confidences of a pose. -/
def poseConf (p : Pose) : ℚ := (p.data.map (fun r => r.2.2)).sum

/-- Modelled from the spec: `TrackAnnotation.score(frame_number,
current_importance)` — a recency-weighted aggregate confidence.  The exact
weighting is declared a design choice; this model weights the pose at the
current frame by `ci` and a pose `d` frames in the past by `(1/2)^d`, which
is monotone in both recency and keypoint confidence. -/
def trackScore (ci : ℚ) (fn : ℤ) (t : Track) : ℚ :=
  (t.frame_pose.map (fun e =>
    if e.1 = fn then ci * poseConf e.2
    else if e.1 < fn then (1 / 2) ^ (fn - e.1).toNat * poseConf e.2
    else 0)).sum

/-! ### Head metadata and the fused tracking schema

`TrackingPose.__init__` (lines 24–34) builds the tracking keypoint list,
sigmas and skeleton from the single-frame metadata and the temporal cache
window `cache_group`.  Keypoint names are abstracted to naturals (only
their count matters to the decoder). -/

/-- Metadata of a single-frame confidence head (`headmeta.TBaseCif`). -/
structure CifMetaD where
  keypoints : List ℕ
  sigmas : List ℚ
deriving DecidableEq

/-- Metadata of a single-frame association head (`headmeta.TBaseCaf`). -/
structure CafMetaD where
  keypoints : List ℕ
  sigmas : List ℚ
  skeleton : List (ℕ × ℕ)
deriving DecidableEq

/-- Metadata of a temporal association head (`headmeta.Tcaf`). -/
structure TcafMetaD where
  keypoints : List ℕ
  sigmas : List ℚ
deriving DecidableEq

/-- The head-metadata kinds that `TrackingPose.factory` discriminates by
`isinstance`; `other` stands for any further head kind. -/
inductive HeadMeta where
  | tbcif (d : CifMetaD)
  | tbcaf (d : CafMetaD)
  | tcaf (d : TcafMetaD)
  | other
deriving DecidableEq

/-- Python list repetition `l * n`. -/
def listRep (l : List α) : ℕ → List α
  | 0 => []
  | n + 1 => l ++ listRep l n

/-- The temporal identity edges of the fused skeleton (lines 29–33):
`[(k+1, k+1+f*K) for f in range(1, len(cache_group)) for k in range(K)]`. -/
def temporalEdges (K n : ℕ) : List (ℕ × ℕ) :=
  (List.range' 1 (n - 1)).flatMap (fun frame_i =>
    (List.range K).map (fun keypoint_i =>
      (keypoint_i + 1, keypoint_i + 1 + frame_i * K)))

/-- The schema data computed once in `TrackingPose.__init__`. -/
structure TrackingPoseModel where
  cif_meta : CifMetaD
  caf_meta : CafMetaD
  tcaf_meta : TcafMetaD
  cache_group : List ℤ
  n_keypoints : ℕ
  tracking_keypoints : List ℕ
  tracking_sigmas : List ℚ
  tracking_skeleton : List (ℕ × ℕ)
deriving DecidableEq

/-- `TrackingPose.__init__`, lines 24–34: the construction of the fused
tracking schema from the head metadata and the cache window. -/
def mkTrackingPose (cg : List ℤ) (cif : CifMetaD) (caf : CafMetaD)
    (tc : TcafMetaD) : TrackingPoseModel :=
  let K := cif.keypoints.length
  { cif_meta := cif
    caf_meta := caf
    tcaf_meta := tc
    cache_group := cg
    n_keypoints := K
    tracking_keypoints := listRep cif.keypoints cg.length
    tracking_sigmas := listRep cif.sigmas cg.length
    tracking_skeleton := caf.skeleton ++ temporalEdges K cg.length }

/-- The class attribute `TrackingPose.cache_group = [0, -1]`. -/
def defaultCacheGroup : List ℤ := [0, -1]

/-- `TrackingPose.factory` (lines 73–84): fewer than 4 heads yields no
instance; otherwise one instance per triple
`(head_metas[i], head_metas[i+1], head_metas[i+3])` whose kinds are
`(TBaseCif, TBaseCaf, Tcaf)`. -/
def factory (head_metas : List HeadMeta) : List TrackingPoseModel :=
  if head_metas.length < 4 then []
  else
    ((head_metas.zip (head_metas.drop 1)).zip (head_metas.drop 3)).filterMap
      (fun x =>
        match x with
        | ((HeadMeta.tbcif c, HeadMeta.tbcaf cf), HeadMeta.tcaf tc) =>
            some (mkTrackingPose defaultCacheGroup c cf tc)
        | _ => none)

/-! ### Occupancy grid

`soft_nms` uses `openpifpaf.decoder.utils.Occupancy((K, h, w), 2,
min_scale=4)` — an external library structure.  Modelled from the spec:
a per-keypoint-channel collection of claimed disks; a query is occupied
when the point lies within `scale_factor * radius` of a claimed disk, the
claimed radius being clamped below by `min_scale`.  The call site fixes
`scale_factor = 2` and `min_scale = 4`.  The `(h, w)` extent only sizes
the backing array and does not change the query semantics modelled here. -/

structure Disk where
  cx : ℚ
  cy : ℚ
  r : ℚ
deriving DecidableEq

/-- The occupancy state: the claimed disks of each keypoint channel. -/
def Occ : Type := ℕ → List Disk

def emptyOcc : Occ := fun _ => []

/-- Membership of a point in the exclusion region of a claimed disk. -/
def withinDisk (x y : ℚ) (d : Disk) : Prop :=
  (x - d.cx) * (x - d.cx) + (y - d.cy) * (y - d.cy) ≤ (2 * d.r) * (2 * d.r)

instance (x y : ℚ) (d : Disk) : Decidable (withinDisk x y d) := by
  unfold withinDisk; infer_instance

/-- `Occupancy.get(f, x, y)`. -/
def occGet (occ : Occ) (f : ℕ) (x y : ℚ) : Bool :=
  (occ f).any (fun d => decide (withinDisk x y d))

/-- `Occupancy.set(f, x, y, sigma)` with the `min_scale = 4` clamp. -/
def occSet (occ : Occ) (f : ℕ) (x y s : ℚ) : Occ :=
  fun g => if g = f then ⟨x, y, max s 4⟩ :: occ g else occ g

/-- The disk claimed for a kept keypoint row with joint scale `s`. -/
def rowDisk (r : Row) (s : ℚ) : Disk := ⟨r.1, r.2.1, max s 4⟩

/-! ### The per-frame suppression pass (`TrackingPose.soft_nms`, lines 86–133) -/

/-- One row of the confidence-threshold pass
`kps[kps[:, 2] < keypoint_threshold] = 0.0`: rows below the threshold are
zeroed whole. -/
def thresholdRow (kpt : ℚ) (r : Row) : Row :=
  if r.2.2 < kpt then (0, 0, 0) else r

/-- The threshold pass over one track (lines 91–96 and 124–129): the pose
recorded at frame `sfn`, when present, has its sub-threshold rows zeroed. -/
def thresholdTrack (kpt : ℚ) (sfn : ℤ) (t : Track) : Track :=
  match trackPose t sfn with
  | none => t
  | some p => updatePoseAt t sfn ⟨p.data.map (thresholdRow kpt), p.joint_scales⟩

/-- The inner loop of the occupancy sweep (lines 113–121): row `j` is the
keypoint channel `f + j`; a zero-confidence row is skipped, an occupied row
has its confidence zeroed, a free row claims its position at its joint
scale.  `zip(ann.data, ann.joint_scales)` truncates at the shorter list. -/
def sweepRows (occ : Occ) (f : ℕ) : List Row → List ℚ → List Row × Occ
  | [], _ => ([], occ)
  | rows, [] => (rows, occ)
  | r :: rows, s :: ss =>
    if r.2.2 = 0 then
      let p := sweepRows occ (f + 1) rows ss
      (r :: p.1, p.2)
    else if occGet occ f r.1 r.2.1 then
      let p := sweepRows occ (f + 1) rows ss
      ((r.1, r.2.1, 0) :: p.1, p.2)
    else
      let p := sweepRows (occSet occ f r.1 r.2.1 s) (f + 1) rows ss
      (r :: p.1, p.2)

/-- The occupancy sweep over one track (lines 107–121): a track without a
pose at `fn` is skipped. -/
def sweepOne (fn : ℤ) (occ : Occ) (t : Track) : Track × Occ :=
  match trackPose t fn with
  | none => (t, occ)
  | some p =>
    let pr := sweepRows occ 0 p.data p.joint_scales
    (updatePoseAt t fn ⟨pr.1, p.joint_scales⟩, pr.2)

/-- The occupancy sweep over the score-sorted track list (lines 106–121);
the index tags keep the position of each track in `self.active`. -/
def sweepTracks (fn : ℤ) (occ : Occ) : List (ℕ × Track) → List (ℕ × Track) × Occ
  | [] => ([], occ)
  | e :: rest =>
    let h := sweepOne fn occ e.2
    let r := sweepTracks fn h.2 rest
    ((e.1, h.1) :: r.1, r.2)

/-- Stable descending insertion by a rational key. -/
def insertDesc (key : α → ℚ) (a : α) : List α → List α
  | [] => [a]
  | b :: bs => if key b ≤ key a then a :: b :: bs else b :: insertDesc key a bs

/-- Modelled from the spec: `sorted(tracks, key=lambda tr: -tr.score(...))`
— a stable sort by descending score.  Any two stable sorts of the same list
under the same key agree, so insertion sort is used. -/
def sortDesc (key : α → ℚ) : List α → List α
  | [] => []
  | a :: as => insertDesc key a (sortDesc key as)

/-- Tag list elements with their positions, starting at `n`. -/
def idxFrom (n : ℕ) : List α → List (ℕ × α)
  | [] => []
  | a :: as => (n, a) :: idxFrom (n + 1) as

/-- Undo the index tagging: the element tagged `j` returns to position `j`.
This models that the sweep mutates the track objects in place, so
`self.active` keeps its original order. -/
def reassemble (n : ℕ) (l : List (ℕ × Track)) : List Track :=
  (List.range n).filterMap (fun j => (l.find? (fun e => e.1 == j)).map (fun e => e.2))

/-- `TrackingPose.soft_nms(tracks, frame_number)` (lines 86–133): threshold
pass, occupancy sweep in descending order of
`track.score(frame_number, current_importance=0.01)`, threshold pass again.
`sfn` is the decoder field `self.frame_number` used by the threshold
passes; every call site passes `frame_number = self.frame_number`.
`kpt` is the external configuration value
`openpifpaf.decoder.utils.nms.Keypoints.keypoint_threshold`. -/
def soft_nms (kpt : ℚ) (sfn : ℤ) (tracks : List Track) (fn : ℤ) : List Track :=
  if tracks.isEmpty then tracks
  else
    let t1 := tracks.map (thresholdTrack kpt sfn)
    let sorted := sortDesc (fun e => trackScore (1 / 100) fn e.2) (idxFrom 0 t1)
    let swept := (sweepTracks fn emptyOcc sorted).1
    (reassemble t1.length swept).map (thresholdTrack kpt sfn)

/-- The positions of the tracks in the order the sweep processes them. -/
def nmsOrder (kpt : ℚ) (sfn : ℤ) (tracks : List Track) (fn : ℤ) : List ℕ :=
  (sortDesc (fun e => trackScore (1 / 100) fn e.2)
    (idxFrom 0 (tracks.map (thresholdTrack kpt sfn)))).map (fun e => e.1)

/-- Number of keypoints with positive confidence at frame `fn` over a track
collection. -/
def countPositive (fn : ℤ) (tracks : List Track) : ℕ :=
  (tracks.map (fun t =>
    match trackPose t fn with
    | some p => (p.data.filter (fun r => decide (0 < r.2.2))).length
    | none => 0)).sum

/-! ### Seed construction (`TrackingPose.__call__`, lines 142–165) -/

/-- Overwrite the slice `l[s : s + b.length]` with `b`. -/
def writeBlock (l : List α) (s : ℕ) (b : List α) : List α :=
  l.take s ++ b ++ l.drop (s + b.length)

/-- The `i`-th length-`K` keypoint block of a fused array. -/
def blockOf (K i : ℕ) (l : List α) : List α := (l.drop (K * i)).take K

/-- One iteration of the seeding loop (lines 150–160): when the track has
a recorded pose at `frame_number + frame_i`, its data and joint scales
overwrite keypoint block `position_i` of the hypothesis. -/
def seedStep (K : ℕ) (t : Track) (fn : ℤ) (ann : Pose) (e : ℕ × ℤ) : Pose :=
  match trackPose t (fn + e.2) with
  | some p =>
      ⟨writeBlock ann.data (K * e.1) p.data,
       writeBlock ann.joint_scales (K * e.1) p.joint_scales⟩
  | none => ann

/-- The raw seed hypothesis of one track before thresholding: a zero array
of `K * len(cache_group)` rows, overwritten blockwise for each
`(position_i, frame_i)` in `enumerate(cache_group[1:], start=1)`
(lines 145–160). -/
def seedRaw (K : ℕ) (cg : List ℤ) (fn : ℤ) (t : Track) : Pose :=
  (idxFrom 1 cg.tail).foldl (seedStep K t fn)
    ⟨List.replicate (K * cg.length) ((0 : ℚ), (0 : ℚ), (0 : ℚ)),
     List.replicate (K * cg.length) 0⟩

/-- Lines 145–165: the full seed for one track — rows below confidence
0.05 zeroed, the hypothesis discarded (`none`) when no confidence is
positive, and the track's id carried on the annotation (line 149). -/
def buildSeed (K : ℕ) (cg : List ℤ) (fn : ℤ) (t : Track) : Option TrackingAnn :=
  let raw := seedRaw K cg fn t
  let d := raw.data.map (thresholdRow (1 / 20))
  if d.any (fun r => decide (0 < r.2.2)) then some ⟨t.id_, d, raw.joint_scales⟩
  else none

/-! ### Split & attribute (`TrackingPose.__call__`, lines 183–198) -/

/-- Line 186–189: the current-frame block of a tracking pose as a new
single-frame pose. -/
def extractPose (K : ℕ) (a : TrackingAnn) : Pose :=
  ⟨a.data.take K, a.joint_scales.take K⟩

/-- The attribution loop.  `origIds` is the key set of the dict
`active_by_id` built once from `self.active` before the loop; a pose with
an id outside it would raise `KeyError` (`none` here).  An unassigned pose
(`id_ = -1`) opens a new track with the next fresh id (the spec's
process-unique monotone counter, modelled explicitly) and the fresh id is
written back onto the tracking pose; an assigned pose is appended to the
track with the matching id. -/
def splitAttributeAux (K : ℕ) (fn : ℤ) (origIds : List ℤ) :
    List TrackingAnn → List Track → ℤ → Option (List Track × ℤ × List TrackingAnn)
  | [], act, nid => some (act, nid, [])
  | a :: rest, act, nid =>
    if a.id_ = -1 then
      match splitAttributeAux K fn origIds rest
          (act ++ [⟨nid, [(fn, extractPose K a)]⟩]) (nid + 1) with
      | some (act', nid', anns') => some (act', nid', { a with id_ := nid } :: anns')
      | none => none
    else
      if a.id_ ∈ origIds then
        match splitAttributeAux K fn origIds rest
            (act.map (fun t =>
              if t.id_ = a.id_ then ⟨t.id_, t.frame_pose ++ [(fn, extractPose K a)]⟩
              else t)) nid with
        | some (act', nid', anns') => some (act', nid', a :: anns')
        | none => none
      else none

/-- Lines 183–198, entry point: the dict of active tracks is keyed by the
ids present when the loop starts. -/
def splitAttribute (K : ℕ) (fn : ℤ) (act : List Track) (nid : ℤ)
    (anns : List TrackingAnn) : Option (List Track × ℤ × List TrackingAnn) :=
  splitAttributeAux K fn (act.map Track.id_) anns act nid

/-- Assign fresh ids `nid, nid+1, …` to the unassigned poses in order. -/
def assignIds (nid : ℤ) : List TrackingAnn → List TrackingAnn
  | [] => []
  | a :: rest =>
    if a.id_ = -1 then { a with id_ := nid } :: assignIds (nid + 1) rest
    else a :: assignIds nid rest

/-- Modelled from the spec (refinement target for the attribution loop),
§4.2 step 4: every assigned pose is appended to its track, every
unassigned pose becomes a new single-entry track with a fresh id, new
tracks are added behind the existing ones, and the fresh ids are written
back in order. -/
def splitAttributeSpec (K : ℕ) (fn : ℤ) (act : List Track) (nid : ℤ)
    (anns : List TrackingAnn) : List Track × ℤ × List TrackingAnn :=
  let newAnns := anns.filter (fun a => a.id_ == -1)
  let updated := act.map (fun t =>
    ⟨t.id_, t.frame_pose ++
      ((anns.filter (fun a => a.id_ == t.id_)).map (fun a => (fn, extractPose K a)))⟩)
  let newTracks := (idxFrom 0 newAnns).map
    (fun e => (⟨nid + e.1, [(fn, extractPose K e.2)]⟩ : Track))
  (updated ++ newTracks, nid + newAnns.length, assignIds nid anns)

/-! ### Track lifecycle and the frame transition (`TrackingPose.__call__`) -/

/-- Modelled from the spec: `TrackBase.track_is_viable` (the file
`track_base.py` is not among the given sources) — of the viability
conditions the spec lists as design examples, this model keeps the
detection-window one: a track is viable at `fn` iff it has a recorded pose
within the last `N` frames. -/
def track_is_viable (N : ℕ) (fn : ℤ) (t : Track) : Bool :=
  t.frame_pose.any (fun e => decide (fn - e.1 ≤ (N : ℤ)))

/-- Modelled from the spec: `TrackBase.annotations(frame_number)` — the
current-frame poses of the active tracks, each tagged with its track id. -/
def emitAnns (fn : ℤ) (active : List Track) : List (ℤ × Pose) :=
  active.filterMap (fun t => (trackPose t fn).map (fun p => (t.id_, p)))

/-- The decoder state: the frame counter, the active tracks, and the
process-wide track-id counter of the spec's data model. -/
structure DecoderState where
  frame_number : ℤ
  active : List Track
  next_track_id : ℤ
deriving DecidableEq

/-- `TrackingPose.__call__` (lines 135–232).  `gen` is the external pose
generator collaborator applied to this frame's fused fields; the
`initial_annotations` parameter is rebound to the self-built seed list on
line 143, so the supplied argument is never read.  The pipeline: advance
the frame counter, seed from the active tracks, run the generator, split
and attribute (`none` on a failing id lookup), suppress, prune, emit. -/
def transition {α : Type} (N K : ℕ) (cg : List ℤ) (kpt : ℚ)
    (gen : α → List TrackingAnn → List TrackingAnn) (fields : α)
    (s : DecoderState) (_initial_annotations : Option (List TrackingAnn)) :
    Option (DecoderState × List (ℤ × Pose)) :=
  let fn := s.frame_number + 1
  let seeds := s.active.filterMap (buildSeed K cg fn)
  let anns := gen fields seeds
  match splitAttribute K fn s.active s.next_track_id anns with
  | none => none
  | some (act1, nid1, _anns1) =>
    let act2 := soft_nms kpt fn act1 fn
    let act3 := act2.filter (track_is_viable N fn)
    some (⟨fn, act3, nid1⟩, emitAnns fn act3)

/-- Iterated frame transitions, one generator-and-fields pair per frame. -/
def iterTransition {α : Type} (N K : ℕ) (cg : List ℤ) (kpt : ℚ) :
    List ((α → List TrackingAnn → List TrackingAnn) × α) → DecoderState →
      Option DecoderState
  | [], s => some s
  | g :: gs, s =>
    match transition N K cg kpt g.1 g.2 s none with
    | none => none
    | some (s', _) => iterTransition N K cg kpt gs s'

/-! ### Auxiliary predicates used by the theorems -/

/-- The claim a pose's keypoint channel `f` contributes to the occupancy
grid: the disk of its row `f` when that row exists, has a joint scale, and
has nonzero confidence. -/
def poseClaims (f : ℕ) (p : Pose) : List Disk :=
  match p.data[f]?, p.joint_scales[f]? with
  | some r, some s => if r.2.2 = 0 then [] else [rowDisk r s]
  | _, _ => []

/-- The claims a track contributes to channel `f` at frame `fn`. -/
def trackClaims (fn : ℤ) (f : ℕ) (t : Track) : List Disk :=
  match trackPose t fn with
  | none => []
  | some p => poseClaims f p

/-- The row and joint scale of a track's keypoint channel `f` at frame
`fn`, when all of them exist. -/
def rowAt (fn : ℤ) (f : ℕ) (t : Track) : Option (Row × ℚ) :=
  match trackPose t fn with
  | none => none
  | some p =>
    match p.data[f]?, p.joint_scales[f]? with
    | some r, some s => some (r, s)
    | _, _ => none

/-- Two keypoint occurrences do not conflict when either is absent or
zero, or the first lies outside the exclusion disk the second would
claim. -/
def pairOK (a b : Option (Row × ℚ)) : Bool :=
  match a, b with
  | some (r, _), some (r', s') =>
    if r.2.2 = 0 then true
    else if r'.2.2 = 0 then true
    else decide (¬ withinDisk r.1 r.2.1 (rowDisk r' s'))
  | _, _ => true

/-- An upper bound on the number of keypoint rows any track carries at
frame `fn`. -/
def maxLen (fn : ℤ) (tracks : List Track) : ℕ :=
  (tracks.map (fun t =>
    match trackPose t fn with
    | some p => p.data.length
    | none => 0)).foldr max 0

/-- No two distinct candidate tracks have same-channel keypoints inside
each other's exclusion disks: on such input the sweep suppresses
nothing regardless of processing order. -/
def ConflictFree (fn : ℤ) (tracks : List Track) : Prop :=
  ∀ i, (hi : i < tracks.length) → ∀ j, (hj : j < tracks.length) →
    ∀ f, f < maxLen fn tracks → i ≠ j →
      pairOK (rowAt fn f (tracks.get ⟨i, hi⟩)) (rowAt fn f (tracks.get ⟨j, hj⟩)) = true

instance (fn : ℤ) (tracks : List Track) : Decidable (ConflictFree fn tracks) := by
  unfold ConflictFree
  infer_instance

/-- Well-formedness of a track as the spec states it: strictly speaking we
only need that frame numbers are pairwise distinct, and, where a claim
depends on it, that every recorded pose has `K` rows and `K` joint
scales. -/
def TrackWF (K : ℕ) (t : Track) : Prop :=
  (t.frame_pose.map Prod.fst).Nodup ∧
    ∀ e ∈ t.frame_pose, e.2.data.length = K ∧ e.2.joint_scales.length = K

/-- Concrete head metadata with two keypoints, used by the witnesses. -/
def cifW : CifMetaD := ⟨[0, 1], [1 / 2, 1 / 2]⟩

def cafW : CafMetaD := ⟨[0, 1], [1 / 2, 1 / 2], [(1, 2)]⟩

def tcafW : TcafMetaD := ⟨[0, 1], [1 / 2, 1 / 2]⟩

/-- The triple `(head_metas[i], head_metas[i+1], head_metas[i+3])` of the
factory's zip, with a default out-of-range value. -/
def tripleAt (hm : List HeadMeta) (i : ℕ) : (HeadMeta × HeadMeta) × HeadMeta :=
  ((hm.getD i HeadMeta.other, hm.getD (i + 1) HeadMeta.other),
    hm.getD (i + 3) HeadMeta.other)

/-- The standard four-head layout `[cif, caf, dcaf, tcaf]` of the data
modules (`cocokpst.py`, `posetrack2018.py`). -/
def hmStd : List HeadMeta :=
  [HeadMeta.tbcif cifW, HeadMeta.tbcaf cafW, HeadMeta.tbcaf cafW, HeadMeta.tcaf tcafW]

/-- The scenario pose of claim C2: K = 4 keypoints, all confidences 0.9. -/
def poseW : Pose :=
  ⟨[(1, 1, 9 / 10), (2, 1, 9 / 10), (3, 1, 9 / 10), (4, 1, 9 / 10)], [2, 2, 2, 2]⟩

/-- The scenario track of claim C2: its only recorded pose is at frame 5. -/
def trackW : Track := ⟨7, [(5, poseW)]⟩

/-! ### Concrete instances used to exercise the suppression pass -/

/-- A one-keypoint history pose: full confidence at position (5, 5). -/
def pwH : Pose := ⟨[(5, 5, 1)], [1]⟩

/-- Track A's current-frame pose. -/
def pwA : Pose := ⟨[(5, 5, 9 / 10)], [1]⟩

/-- Track B's current-frame pose: same keypoint, same confidence. -/
def pwB : Pose := ⟨[(5, 5, 9 / 10)], [1]⟩

/-- Track A: a history entry at frame 0 and the shared pose at frame 1. -/
def cwA : Track := ⟨0, [(0, pwH), (1, pwA)]⟩

/-- Track B: only the shared pose at frame 1, hence the lower score. -/
def cwB : Track := ⟨1, [(1, pwB)]⟩

/-- First track of the idempotence counterexample: keypoint 0 at (0, 0)
with joint scale 10, strong history, top score on both passes. -/
def c4T1 : Track :=
  ⟨1, [(9, ⟨[(0, 0, 1), (0, 0, 0)], [1, 1]⟩),
       (10, ⟨[(0, 0, 9 / 10), (200, 0, 0)], [10, 4]⟩)]⟩

/-- Second track: keypoint 0 near T1 (suppressed on pass one), keypoint 1
at (100, 0) with the small scale 4. -/
def c4T2 : Track :=
  ⟨2, [(9, ⟨[(0, 0, 4 / 5), (0, 0, 0)], [1, 1]⟩),
       (10, ⟨[(5, 0, 9 / 10), (100, 0, 9 / 10)], [4, 4]⟩)]⟩

/-- Third track: keypoint 1 at (100, 15), outside T2's small claim but
claiming a large scale-10 disk of its own once it overtakes T2 in score. -/
def c4T3 : Track :=
  ⟨3, [(9, ⟨[(0, 0, 81 / 100), (0, 0, 0)], [1, 1]⟩),
       (10, ⟨[(120, 200, 0), (100, 15, 9 / 10)], [4, 10]⟩)]⟩

/-- An unassigned (id -1) single-keypoint tracking pose, as the generator
returns for a brand-new detection. -/
def cw6 : TrackingAnn := ⟨-1, [(3, 4, 1 / 2)], [2]⟩

/-- First track of the threshold-monotonicity counterexample: a weak
(confidence 3/20) but high-scoring keypoint with the large scale 10 at
(0, 0); it survives a threshold of 1/10 and suppresses both neighbours,
but is removed by a threshold of 1/5. -/
def c5X : Track := ⟨1, [(0, ⟨[(0, 0, 1)], [1]⟩), (1, ⟨[(0, 0, 3 / 20)], [10]⟩)]⟩

/-- Second track: a strong keypoint at (0, 6) with the small scale 1. -/
def c5Y : Track := ⟨2, [(0, ⟨[(0, 0, 3 / 5)], [1]⟩), (1, ⟨[(0, 6, 9 / 10)], [1]⟩)]⟩

/-- Third track: a strong keypoint at (0, -6), outside Y's small claim but
inside X's large one. -/
def c5Z : Track := ⟨3, [(0, ⟨[(0, 0, 1 / 2)], [1]⟩), (1, ⟨[(0, -6, 9 / 10)], [1]⟩)]⟩

/-- First track of the monotonicity witness pair. -/
def cw5A : Track := ⟨0, [(1, ⟨[(0, 0, 9 / 10)], [1]⟩)]⟩

/-- Second track of the monotonicity witness pair, far from the first
(conflict-free) and with confidence between the two thresholds. -/
def cw5B : Track := ⟨1, [(1, ⟨[(100, 100, 3 / 20)], [1]⟩)]⟩

/-- First track of the idempotence witness pair: strong history. -/
def cw4A : Track := ⟨0, [(0, ⟨[(0, 0, 1)], [1]⟩), (1, ⟨[(0, 0, 9 / 10)], [1]⟩)]⟩

/-- Second track of the idempotence witness pair: nearby keypoint that the
first pass suppresses without flipping the score order. -/
def cw4B : Track := ⟨1, [(0, ⟨[(0, 1, 1 / 2)], [1]⟩), (1, ⟨[(0, 1, 9 / 10)], [1]⟩)]⟩

/-! ## General list lemmas -/

theorem listRep_length (l : List α) : ∀ n, (listRep l n).length = n * l.length
  | 0 => by simp [listRep]
  | n + 1 => by
    simp [listRep, List.length_append, listRep_length l n, Nat.succ_mul, Nat.add_comm]

theorem idxFrom_length (n : ℕ) : ∀ (l : List α), (idxFrom n l).length = l.length
  | [] => rfl
  | _ :: as => by simp [idxFrom, idxFrom_length (n + 1) as]

theorem idxFrom_getElem? : ∀ (l : List α) (n j : ℕ),
    (idxFrom n l)[j]? = (l[j]?).map (fun a => (n + j, a))
  | [], _, _ => by simp [idxFrom]
  | a :: as, n, 0 => by simp [idxFrom]
  | a :: as, n, j + 1 => by
    have h := idxFrom_getElem? as (n + 1) j
    simp only [idxFrom, List.getElem?_cons_succ, h]
    have harith : n + 1 + j = n + (j + 1) := by omega
    rw [harith]

theorem mem_idxFrom : ∀ (l : List α) (n : ℕ) (e : ℕ × α),
    e ∈ idxFrom n l ↔ ∃ m, e.1 = n + m ∧ l[m]? = some e.2
  | [], n, e => by simp [idxFrom]
  | a :: as, n, e => by
    obtain ⟨j, x⟩ := e
    simp only [idxFrom, List.mem_cons, mem_idxFrom as (n + 1) ⟨j, x⟩]
    constructor
    · rintro (h | ⟨m, h1, h2⟩)
      · rw [Prod.mk.injEq] at h
        exact ⟨0, by omega, by simp [h.2]⟩
      · exact ⟨m + 1, by omega, by simpa using h2⟩
    · rintro ⟨m, h1, h2⟩
      match m, h1, h2 with
      | 0, h1, h2 =>
        left
        rw [Prod.mk.injEq]
        simp only [List.getElem?_cons_zero, Option.some.injEq] at h2
        exact ⟨by omega, h2.symm⟩
      | m + 1, h1, h2 =>
        right
        exact ⟨m, by omega, by simpa using h2⟩

theorem idxFrom_find? : ∀ (l : List α) (n m : ℕ),
    (idxFrom n l).find? (fun e => e.1 == n + m) = (l[m]?).map (fun a => (n + m, a))
  | [], n, m => by simp [idxFrom]
  | a :: as, n, 0 => by simp [idxFrom, List.find?_cons]
  | a :: as, n, m + 1 => by
    have h := idxFrom_find? as (n + 1) m
    have harith : n + 1 + m = n + (m + 1) := by omega
    rw [harith] at h
    simp only [idxFrom, List.find?_cons]
    have hfalse : ((n, a).1 == n + (m + 1)) = false := by
      simp only [beq_eq_false_iff_ne, ne_eq]
      omega
    rw [hfalse, h]
    simp

theorem filterMap_of_isSome (F : β → Option γ) :
    ∀ (l : List β), (∀ b ∈ l, (F b).isSome) →
      (l.filterMap F).length = l.length ∧
        ∀ (j : ℕ) (b : β), l[j]? = some b → (l.filterMap F)[j]? = F b
  | [], _ => by simp
  | b :: bs, h => by
    obtain ⟨c, hc⟩ : ∃ c, F b = some c := Option.isSome_iff_exists.mp (h b (by simp))
    have ih := filterMap_of_isSome F bs (fun x hx => h x (by simp [hx]))
    rw [List.filterMap_cons, hc]
    refine ⟨by simp [ih.1], ?_⟩
    intro j x hj
    match j, hj with
    | 0, hj =>
      simp only [List.getElem?_cons_zero, Option.some.injEq] at hj
      subst hj
      simp [hc]
    | j + 1, hj =>
      simp only [List.getElem?_cons_succ] at hj ⊢
      exact ih.2 j x hj

theorem zip_getElem? : ∀ (l₁ : List α) (l₂ : List β) (i : ℕ),
    (l₁.zip l₂)[i]? = match l₁[i]?, l₂[i]? with
      | some a, some b => some (a, b)
      | _, _ => none
  | [], l₂, i => by simp
  | a :: as, [], i => by simp
  | a :: as, b :: bs, 0 => by simp [List.zip_cons_cons]
  | a :: as, b :: bs, i + 1 => by
    simp only [List.zip_cons_cons, List.getElem?_cons_succ]
    exact zip_getElem? as bs i

theorem writeBlock_length (l b : List α) (s : ℕ) (hs : s + b.length ≤ l.length) :
    (writeBlock l s b).length = l.length := by
  simp [writeBlock, List.length_append, List.length_take, List.length_drop]
  omega

theorem writeBlock_getElem? (l b : List α) (s j : ℕ) (hs : s + b.length ≤ l.length) :
    (writeBlock l s b)[j]? =
      if j < s then l[j]?
      else if j < s + b.length then b[j - s]? else l[j]? := by
  unfold writeBlock
  have hts : (l.take s).length = s := by simp; omega
  have hAB : (l.take s ++ b).length = s + b.length := by
    rw [List.length_append, hts]
  by_cases h1 : j < s
  · rw [List.getElem?_append_left (by rw [hAB]; omega),
      List.getElem?_append_left (by rw [hts]; omega), List.getElem?_take_of_lt h1,
      if_pos h1]
  · by_cases h2 : j < s + b.length
    · rw [List.getElem?_append_left (by rw [hAB]; omega),
        List.getElem?_append_right (by rw [hts]; omega), hts, if_neg h1, if_pos h2]
    · rw [List.getElem?_append_right (by rw [hAB]; omega), hAB, List.getElem?_drop,
        if_neg h1, if_neg h2]
      congr 1
      omega

theorem blockOf_getElem? (K i : ℕ) (l : List α) (m : ℕ) :
    (blockOf K i l)[m]? = if m < K then l[K * i + m]? else none := by
  unfold blockOf
  by_cases h : m < K
  · rw [List.getElem?_take_of_lt h, List.getElem?_drop, if_pos h]
  · rw [if_neg h]
    apply List.getElem?_eq_none
    simp [List.length_take, List.length_drop]
    omega

theorem blockOf_writeBlock_self (K i : ℕ) (l b : List α) (hb : b.length = K)
    (hle : K * i + K ≤ l.length) :
    blockOf K i (writeBlock l (K * i) b) = b := by
  apply List.ext_getElem?
  intro m
  rw [blockOf_getElem?]
  by_cases h : m < K
  · rw [if_pos h, writeBlock_getElem? _ _ _ _ (by omega), if_neg (by omega),
      if_pos (by omega)]
    congr 1
    omega
  · rw [if_neg h]
    exact (List.getElem?_eq_none (by omega)).symm

theorem blockOf_writeBlock_other (K i j : ℕ) (l b : List α) (hb : b.length = K)
    (hij : i ≠ j) (hle : K * i + K ≤ l.length) :
    blockOf K j (writeBlock l (K * i) b) = blockOf K j l := by
  apply List.ext_getElem?
  intro m
  rw [blockOf_getElem?, blockOf_getElem?]
  by_cases h : m < K
  · rw [if_pos h, if_pos h, writeBlock_getElem? _ _ _ _ (by omega)]
    have hd : K * j + m < K * i ∨ K * i + K ≤ K * j + m := by
      rcases Nat.lt_or_ge j i with hj | hj
      · left
        have h1 : K * (j + 1) ≤ K * i := Nat.mul_le_mul_left K hj
        have h2 : K * (j + 1) = K * j + K := by ring
        omega
      · right
        have hj' : i + 1 ≤ j := by omega
        have h1 : K * (i + 1) ≤ K * j := Nat.mul_le_mul_left K hj'
        have h2 : K * (i + 1) = K * i + K := by ring
        omega
    rcases hd with hd | hd
    · rw [if_pos hd]
    · rw [if_neg (by omega), if_neg (by omega)]
  · rw [if_neg h, if_neg h]

/-! ## The fused tracking schema (claim C1) -/

theorem temporalEdges_eq (K n : ℕ) :
    temporalEdges K n = ((List.range' 1 (n - 1)) ×ˢ (List.range K)).map
      (fun p => (p.2 + 1, p.2 + 1 + p.1 * K)) := by
  simp only [temporalEdges, SProd.sprod, List.product, List.map_flatMap, List.map_map]
  rfl

theorem mem_temporalEdges (K n : ℕ) (e : ℕ × ℕ) :
    e ∈ temporalEdges K n ↔
      ∃ k i : ℕ, k < K ∧ 1 ≤ i ∧ i < n ∧ e = (k + 1, k + 1 + i * K) := by
  unfold temporalEdges
  rw [List.mem_flatMap]
  constructor
  · rintro ⟨fi, hfi, he⟩
    rw [List.mem_map] at he
    obtain ⟨ki, hki, rfl⟩ := he
    rw [List.mem_range'_1] at hfi
    rw [List.mem_range] at hki
    exact ⟨ki, fi, hki, hfi.1, by omega, rfl⟩
  · rintro ⟨k, i, hk, h1, h2, rfl⟩
    refine ⟨i, ?_, ?_⟩
    · rw [List.mem_range'_1]
      omega
    · rw [List.mem_map]
      refine ⟨k, ?_, rfl⟩
      rw [List.mem_range]
      exact hk

theorem temporalEdges_nodup (K n : ℕ) : (temporalEdges K n).Nodup := by
  rw [temporalEdges_eq]
  apply List.Nodup.map_on
  · rintro ⟨i, k⟩ hx ⟨i', k'⟩ hy hf
    rw [List.mem_product] at hx hy
    have hk' : k < K := by
      have := hx.2
      rwa [List.mem_range] at this
    have hf1 : k + 1 = k' + 1 := congrArg Prod.fst hf
    have hf2 : k + 1 + i * K = k' + 1 + i' * K := congrArg Prod.snd hf
    have hk : k = k' := by omega
    subst hk
    have hmul : i * K = i' * K := by omega
    rw [Prod.mk.injEq]
    exact ⟨Nat.eq_of_mul_eq_mul_right (by omega) hmul, rfl⟩
  · exact List.Nodup.product (List.nodup_range' _ _) (List.nodup_range K)

/-- C1: the tracking schema built once at construction has
`K * len(cache_group)` keypoints, and the tracking skeleton is the
intra-frame skeleton followed by the temporal edges: for every keypoint
`k` (1-based) and every frame-block index `0 < i < len(cache_group)` the
edge `(k, k + i*K)` linking keypoint `k` of frame block 0 to keypoint `k`
of frame block `i` occurs (exactly once, the appended part having no
duplicates), and every appended edge is of this shape. -/
theorem claim_C1_tracking_schema (cg : List ℤ) (cif : CifMetaD) (caf : CafMetaD)
    (tc : TcafMetaD) :
    (mkTrackingPose cg cif caf tc).tracking_keypoints.length
        = cif.keypoints.length * cg.length ∧
    (mkTrackingPose cg cif caf tc).tracking_skeleton.take caf.skeleton.length
        = caf.skeleton ∧
    (∀ k i : ℕ, k < cif.keypoints.length → 1 ≤ i → i < cg.length →
      (k + 1, k + 1 + i * cif.keypoints.length)
        ∈ (mkTrackingPose cg cif caf tc).tracking_skeleton.drop caf.skeleton.length) ∧
    ((mkTrackingPose cg cif caf tc).tracking_skeleton.drop caf.skeleton.length).Nodup ∧
    ∀ e ∈ (mkTrackingPose cg cif caf tc).tracking_skeleton.drop caf.skeleton.length,
      ∃ k i : ℕ, k < cif.keypoints.length ∧ 1 ≤ i ∧ i < cg.length ∧
        e = (k + 1, k + 1 + i * cif.keypoints.length) := by
  refine ⟨?_, ?_, ?_, ?_, ?_⟩
  · simp [mkTrackingPose, listRep_length, Nat.mul_comm]
  · simp [mkTrackingPose, List.take_left]
  · intro k i hk h1 h2
    simp only [mkTrackingPose, List.drop_left]
    exact (mem_temporalEdges _ _ _).mpr ⟨k, i, hk, h1, h2, rfl⟩
  · simp only [mkTrackingPose, List.drop_left]
    exact temporalEdges_nodup _ _
  · intro e he
    simp only [mkTrackingPose, List.drop_left] at he
    exact (mem_temporalEdges _ _ e).mp he

theorem claim_C1_tracking_schema_witness :
    (mkTrackingPose defaultCacheGroup cifW cafW tcafW).tracking_keypoints.length = 2 * 2 ∧
    (mkTrackingPose defaultCacheGroup cifW cafW tcafW).tracking_skeleton.take 1
        = cafW.skeleton ∧
    (1 + 1, 1 + 1 + 1 * 2)
      ∈ (mkTrackingPose defaultCacheGroup cifW cafW tcafW).tracking_skeleton.drop 1 :=
  have h := claim_C1_tracking_schema defaultCacheGroup cifW cafW tcafW
  ⟨h.1, h.2.1, h.2.2.1 1 1 (by decide) (by decide) (by decide)⟩

/-! ## The decoder factory (claims C8 and C10) -/

/-- C8: with fewer than 4 head metadata entries the factory applies to
nothing: it returns the empty list (the model is a total function, so no
runtime failure occurs). -/
theorem claim_C8_factory_short (head_metas : List HeadMeta)
    (h : head_metas.length < 4) : factory head_metas = [] := by
  simp [factory, h]

theorem claim_C8_factory_short_witness :
    factory [HeadMeta.other, HeadMeta.other, HeadMeta.other] = [] :=
  claim_C8_factory_short _ (by decide)

theorem zip_zip_eq_map_range (hm : List HeadMeta) :
    (hm.zip (hm.drop 1)).zip (hm.drop 3)
      = (List.range (hm.length - 3)).map (tripleAt hm) := by
  apply List.ext_getElem?
  intro i
  by_cases hi : i < hm.length - 3
  · rw [zip_getElem?, zip_getElem?]
    have e1 : hm[i]? = some (hm.getD i HeadMeta.other) := by
      simp [List.getD_eq_getElem?_getD, List.getElem?_eq_getElem (by omega : i < hm.length)]
    have e2 : hm[i + 1]? = some (hm.getD (i + 1) HeadMeta.other) := by
      simp [List.getD_eq_getElem?_getD,
        List.getElem?_eq_getElem (by omega : i + 1 < hm.length)]
    have e3 : hm[i + 3]? = some (hm.getD (i + 3) HeadMeta.other) := by
      simp [List.getD_eq_getElem?_getD,
        List.getElem?_eq_getElem (by omega : i + 3 < hm.length)]
    rw [List.getElem?_drop, List.getElem?_drop, List.getElem?_map,
      List.getElem?_range hi]
    have h1 : (1 : ℕ) + i = i + 1 := by omega
    have h3 : (3 : ℕ) + i = i + 3 := by omega
    rw [h1, h3, e1, e2, e3]
    rfl
  · rw [List.getElem?_eq_none, List.getElem?_eq_none]
    · simp only [List.length_map, List.length_range]
      omega
    · simp only [List.length_zip, List.length_drop]
      omega

/-- C10: for at least 4 heads, the factory yields one decoder instance for
exactly the indices `i` where head `i` is a tracking-base confidence head,
head `i+1` a tracking-base association head, and head `i+3` a temporal
association head; head `i+2` takes no part in the pairing. -/
theorem claim_C10_factory_pairs (hm : List HeadMeta) (h4 : 4 ≤ hm.length) :
    factory hm = (List.range (hm.length - 3)).filterMap (fun i =>
      match hm[i]?, hm[i + 1]?, hm[i + 3]? with
      | some (HeadMeta.tbcif c), some (HeadMeta.tbcaf cf), some (HeadMeta.tcaf tc) =>
          some (mkTrackingPose defaultCacheGroup c cf tc)
      | _, _, _ => none) := by
  rw [factory, if_neg (by omega), zip_zip_eq_map_range, List.filterMap_map]
  apply List.filterMap_congr
  intro i hi
  simp only [List.mem_range] at hi
  have e1 : hm[i]? = some (hm.getD i HeadMeta.other) := by
    simp [List.getD_eq_getElem?_getD, List.getElem?_eq_getElem (by omega : i < hm.length)]
  have e2 : hm[i + 1]? = some (hm.getD (i + 1) HeadMeta.other) := by
    simp [List.getD_eq_getElem?_getD,
      List.getElem?_eq_getElem (by omega : i + 1 < hm.length)]
  have e3 : hm[i + 3]? = some (hm.getD (i + 3) HeadMeta.other) := by
    simp [List.getD_eq_getElem?_getD,
      List.getElem?_eq_getElem (by omega : i + 3 < hm.length)]
  rw [e1, e2, e3]
  simp only [Function.comp, tripleAt]
  cases hm.getD i HeadMeta.other <;> cases hm.getD (i + 1) HeadMeta.other <;>
    cases hm.getD (i + 3) HeadMeta.other <;> rfl

theorem claim_C10_factory_pairs_witness :
    factory hmStd = [mkTrackingPose defaultCacheGroup cifW cafW tcafW] := by
  rw [claim_C10_factory_pairs hmStd (by decide)]
  rfl

/-! ## Seed construction (claim C2) -/

theorem trackPose_mem (t : Track) (fn : ℤ) (p : Pose) (h : trackPose t fn = some p) :
    (fn, p) ∈ t.frame_pose := by
  unfold trackPose at h
  obtain ⟨e, hfind, hsnd⟩ := Option.map_eq_some'.mp h
  have hmem := List.mem_of_find?_eq_some hfind
  rw [List.mem_reverse] at hmem
  have hfst := List.find?_some hfind
  simp only [beq_iff_eq] at hfst
  have he : e = (fn, p) := by
    obtain ⟨e1, e2⟩ := e
    simp only at hfst hsnd
    rw [hfst, hsnd]
  rwa [he] at hmem

theorem idxFrom_map_fst (n : ℕ) :
    ∀ (l : List α), (idxFrom n l).map Prod.fst = List.range' n l.length
  | [] => rfl
  | a :: as => by
    simp only [idxFrom, List.map_cons, idxFrom_map_fst (n + 1) as, List.length_cons]
    rfl

theorem blockOf_replicate (K i n : ℕ) (z : α) (h : i < n) :
    blockOf K i (List.replicate (K * n) z) = List.replicate K z := by
  unfold blockOf
  rw [List.drop_replicate, List.take_replicate]
  congr 1
  have h1 : K * (i + 1) ≤ K * n := Nat.mul_le_mul_left K (by omega)
  have h2 : K * (i + 1) = K * i + K := by ring
  omega

theorem thresholdRow_cases (c : ℚ) (r : Row) :
    thresholdRow c r = (0, 0, 0) ∧ r.2.2 < c ∨ thresholdRow c r = r ∧ c ≤ r.2.2 := by
  unfold thresholdRow
  split
  next h => exact Or.inl ⟨rfl, h⟩
  next h => exact Or.inr ⟨rfl, le_of_not_lt h⟩

theorem seedFold_blocks (K : ℕ) (t : Track) (fn : ℤ)
    (hK : ∀ (fr : ℤ) (p : Pose), trackPose t fr = some p →
      p.data.length = K ∧ p.joint_scales.length = K) (n : ℕ) :
    ∀ (l : List (ℕ × ℤ)) (a : Pose),
      a.data.length = K * n → a.joint_scales.length = K * n →
      (∀ e ∈ l, 1 ≤ e.1 ∧ e.1 < n) → (l.map Prod.fst).Nodup →
      (l.foldl (seedStep K t fn) a).data.length = K * n ∧
      (l.foldl (seedStep K t fn) a).joint_scales.length = K * n ∧
      (∀ (j : ℕ) (e : ℕ × ℤ), l.find? (fun x => x.1 == j) = some e →
        (∀ p, trackPose t (fn + e.2) = some p →
          blockOf K j (l.foldl (seedStep K t fn) a).data = p.data ∧
          blockOf K j (l.foldl (seedStep K t fn) a).joint_scales = p.joint_scales) ∧
        (trackPose t (fn + e.2) = none →
          blockOf K j (l.foldl (seedStep K t fn) a).data = blockOf K j a.data ∧
          blockOf K j (l.foldl (seedStep K t fn) a).joint_scales
            = blockOf K j a.joint_scales)) ∧
      (∀ j : ℕ, l.find? (fun x => x.1 == j) = none →
        blockOf K j (l.foldl (seedStep K t fn) a).data = blockOf K j a.data ∧
        blockOf K j (l.foldl (seedStep K t fn) a).joint_scales = blockOf K j a.joint_scales)
  | [], a => by
    intro ha1 ha2 _ _
    refine ⟨ha1, ha2, ?_, ?_⟩
    · intro j e hfind
      simp at hfind
    · intro j _
      exact ⟨rfl, rfl⟩
  | (ix, off) :: rest, a => by
    intro ha1 ha2 hbd hnd
    have hb := hbd (ix, off) (by simp)
    have hle : K * ix + K ≤ K * n := by
      have h1 : K * (ix + 1) ≤ K * n := Nat.mul_le_mul_left K (by omega)
      have h2 : K * (ix + 1) = K * ix + K := by ring
      omega
    rw [List.foldl_cons]
    have hnd' : (rest.map Prod.fst).Nodup := by
      rw [List.map_cons] at hnd
      exact hnd.of_cons
    have hnotmem : ix ∉ rest.map Prod.fst := by
      rw [List.map_cons] at hnd
      exact (List.nodup_cons.mp hnd).1
    -- properties of the one-step result
    have hstep : (seedStep K t fn a (ix, off)).data.length = K * n ∧
        (seedStep K t fn a (ix, off)).joint_scales.length = K * n ∧
        ((∀ p, trackPose t (fn + off) = some p →
          blockOf K ix (seedStep K t fn a (ix, off)).data = p.data ∧
          blockOf K ix (seedStep K t fn a (ix, off)).joint_scales = p.joint_scales) ∧
        (trackPose t (fn + off) = none → seedStep K t fn a (ix, off) = a)) ∧
        ∀ j, j ≠ ix →
          blockOf K j (seedStep K t fn a (ix, off)).data = blockOf K j a.data ∧
          blockOf K j (seedStep K t fn a (ix, off)).joint_scales
            = blockOf K j a.joint_scales := by
      rcases hpose : trackPose t (fn + off) with _ | p
      · have ha' : seedStep K t fn a (ix, off) = a := by
          simp only [seedStep, hpose]
        rw [ha']
        refine ⟨ha1, ha2, ⟨?_, fun _ => rfl⟩, fun j _ => ⟨rfl, rfl⟩⟩
        intro p hp
        simp at hp
      · obtain ⟨hpd, hps⟩ := hK _ p hpose
        have ha' : seedStep K t fn a (ix, off) =
            ⟨writeBlock a.data (K * ix) p.data,
             writeBlock a.joint_scales (K * ix) p.joint_scales⟩ := by
          simp only [seedStep, hpose]
        rw [ha']
        refine ⟨?_, ?_, ?_, ?_⟩
        · show (writeBlock a.data (K * ix) p.data).length = K * n
          rw [writeBlock_length _ _ _ (by rw [hpd, ha1]; omega), ha1]
        · show (writeBlock a.joint_scales (K * ix) p.joint_scales).length = K * n
          rw [writeBlock_length _ _ _ (by rw [hps, ha2]; omega), ha2]
        · constructor
          · intro p' hp'
            have hpp : p = p' := by simpa using hp'
            subst hpp
            constructor
            · exact blockOf_writeBlock_self _ _ _ _ hpd (by rw [ha1]; omega)
            · exact blockOf_writeBlock_self _ _ _ _ hps (by rw [ha2]; omega)
          · intro hcontra
            simp at hcontra
        · intro j hj
          constructor
          · exact blockOf_writeBlock_other _ _ _ _ _ hpd (fun h => hj h.symm)
              (by rw [ha1]; omega)
          · exact blockOf_writeBlock_other _ _ _ _ _ hps (fun h => hj h.symm)
              (by rw [ha2]; omega)
    obtain ⟨hs1, hs2, ⟨hsome, hnone⟩, hother⟩ := hstep
    have ih := seedFold_blocks K t fn hK n rest (seedStep K t fn a (ix, off)) hs1 hs2
      (fun e he => hbd e (List.mem_cons_of_mem _ he)) hnd'
    refine ⟨ih.1, ih.2.1, ?_, ?_⟩
    · intro j e hfind
      rw [List.find?_cons] at hfind
      rcases hix : ((ix, off).1 == j) with _ | _
      · rw [hix] at hfind
        have hji : j ≠ ix := by
          simp only [beq_eq_false_iff_ne, ne_eq] at hix
          exact fun h => hix h.symm
        have := ih.2.2.1 j e hfind
        refine ⟨?_, ?_⟩
        · intro p hp
          obtain ⟨h1, h2⟩ := (this.1 p hp)
          exact ⟨h1, h2⟩
        · intro hp
          obtain ⟨h1, h2⟩ := this.2 hp
          obtain ⟨h3, h4⟩ := hother j hji
          exact ⟨h1.trans h3, h2.trans h4⟩
      · rw [hix] at hfind
        cases hfind
        have hj : ix = j := by simpa using hix
        subst hj
        have hrestnone : rest.find? (fun x => x.1 == ix) = none := by
          rw [List.find?_eq_none]
          intro x hx
          simp only [beq_iff_eq]
          intro hcontra
          exact hnotmem (hcontra ▸ List.mem_map_of_mem Prod.fst hx)
        obtain ⟨hda, hsa⟩ := ih.2.2.2 ix hrestnone
        refine ⟨?_, ?_⟩
        · intro p hp
          obtain ⟨h1, h2⟩ := hsome p hp
          exact ⟨hda.trans h1, hsa.trans h2⟩
        · intro hp
          have ha' := hnone hp
          exact ⟨hda.trans (by rw [ha']), hsa.trans (by rw [ha'])⟩
    · intro j hfind
      rw [List.find?_cons] at hfind
      rcases hix : ((ix, off).1 == j) with _ | _
      · rw [hix] at hfind
        have hji : j ≠ ix := by
          simp only [beq_eq_false_iff_ne, ne_eq] at hix
          exact fun h => hix h.symm
        obtain ⟨h1, h2⟩ := ih.2.2.2 j hfind
        obtain ⟨h3, h4⟩ := hother j hji
        exact ⟨h1.trans h3, h2.trans h4⟩
      · rw [hix] at hfind
        cases hfind

theorem mem_threshold_conf (c : ℚ) (l : List Row) (r : Row)
    (h : r ∈ l.map (thresholdRow c)) : r.2.2 = 0 ∨ c ≤ r.2.2 := by
  rw [List.mem_map] at h
  obtain ⟨r', _, rfl⟩ := h
  rcases thresholdRow_cases c r' with ⟨he, _⟩ | ⟨he, hge⟩
  · rw [he]
    left
    rfl
  · rw [he]
    right
    exact hge

/-- C2: seed construction for a frame transition.  For every non-current
position `i` of `cache_group` holding offset `off`: a recorded pose at
exactly `fn + off` is copied (data and joint scales) into keypoint block
`i` of the hypothesis, and a missing pose leaves block `i` at zero
confidence; block 0 (the current frame) stays zero; every keypoint with
confidence below 0.05 is zeroed whole; and the hypothesis is discarded
(`none`) exactly when every keypoint confidence is zero. -/
theorem claim_C2_seed_blocks (K : ℕ) (cg : List ℤ) (fn : ℤ) (t : Track)
    (hwf : ∀ e ∈ t.frame_pose, e.2.data.length = K ∧ e.2.joint_scales.length = K) :
    (∀ (i : ℕ) (off : ℤ), 1 ≤ i → cg[i]? = some off →
      (∀ p, trackPose t (fn + off) = some p →
        blockOf K i (seedRaw K cg fn t).data = p.data ∧
        blockOf K i (seedRaw K cg fn t).joint_scales = p.joint_scales) ∧
      (trackPose t (fn + off) = none →
        blockOf K i (seedRaw K cg fn t).data
          = List.replicate K ((0 : ℚ), (0 : ℚ), (0 : ℚ)))) ∧
    (0 < cg.length →
      blockOf K 0 (seedRaw K cg fn t).data
        = List.replicate K ((0 : ℚ), (0 : ℚ), (0 : ℚ))) ∧
    (∀ (j : ℕ) (r : Row), (seedRaw K cg fn t).data[j]? = some r → r.2.2 < 1 / 20 →
      ((seedRaw K cg fn t).data.map (thresholdRow (1 / 20)))[j]?
        = some (((0 : ℚ), (0 : ℚ), (0 : ℚ)) : Row)) ∧
    (buildSeed K cg fn t = none ↔
      ∀ r ∈ (seedRaw K cg fn t).data.map (thresholdRow (1 / 20)), r.2.2 = 0) ∧
    (∀ a, buildSeed K cg fn t = some a →
      a.id_ = t.id_ ∧ a.data = (seedRaw K cg fn t).data.map (thresholdRow (1 / 20)) ∧
      a.joint_scales = (seedRaw K cg fn t).joint_scales) := by
  have hK : ∀ (fr : ℤ) (p : Pose), trackPose t fr = some p →
      p.data.length = K ∧ p.joint_scales.length = K := by
    intro fr p hp
    exact hwf (fr, p) (trackPose_mem t fr p hp)
  have hbounds : ∀ e ∈ idxFrom 1 cg.tail, 1 ≤ e.1 ∧ e.1 < cg.length := by
    intro e he
    rw [mem_idxFrom] at he
    obtain ⟨m, hm1, hm2⟩ := he
    rw [List.getElem?_eq_some] at hm2
    obtain ⟨hlt, _⟩ := hm2
    rw [List.length_tail] at hlt
    omega
  have hnodup : ((idxFrom 1 cg.tail).map Prod.fst).Nodup := by
    rw [idxFrom_map_fst]
    exact List.nodup_range' _ _
  have hfold := seedFold_blocks K t fn hK cg.length (idxFrom 1 cg.tail)
    ⟨List.replicate (K * cg.length) ((0 : ℚ), (0 : ℚ), (0 : ℚ)),
     List.replicate (K * cg.length) 0⟩
    (by simp) (by simp) hbounds hnodup
  have hsr : seedRaw K cg fn t = (idxFrom 1 cg.tail).foldl (seedStep K t fn)
      ⟨List.replicate (K * cg.length) ((0 : ℚ), (0 : ℚ), (0 : ℚ)),
       List.replicate (K * cg.length) 0⟩ := rfl
  refine ⟨?_, ?_, ?_, ?_, ?_⟩
  · intro i off h1 hoff
    have hi : i < cg.length := by
      rw [List.getElem?_eq_some] at hoff
      obtain ⟨hlt, _⟩ := hoff
      exact hlt
    have hieq : 1 + (i - 1) = i := by omega
    have hfind := idxFrom_find? cg.tail 1 (i - 1)
    rw [hieq] at hfind
    have htail : cg.tail[i - 1]? = some off := by
      have hdrop : cg.tail = cg.drop 1 := (List.drop_one cg).symm
      rw [hdrop, List.getElem?_drop, hieq, hoff]
    rw [htail] at hfind
    have hres := hfold.2.2.1 i (i, off) hfind
    constructor
    · intro p hp
      obtain ⟨h1', h2'⟩ := hres.1 p hp
      rw [hsr]
      exact ⟨h1', h2'⟩
    · intro hp
      obtain ⟨h1', _⟩ := hres.2 hp
      rw [hsr, h1']
      exact blockOf_replicate K i cg.length _ hi
  · intro hlen
    have hnone : (idxFrom 1 cg.tail).find? (fun x => x.1 == 0) = none := by
      rw [List.find?_eq_none]
      intro x hx
      have := hbounds x hx
      simp only [beq_iff_eq]
      omega
    obtain ⟨h1', _⟩ := hfold.2.2.2 0 hnone
    rw [hsr, h1']
    exact blockOf_replicate K 0 cg.length _ hlen
  · intro j r hj hlt
    rw [List.getElem?_map, hj]
    simp only [Option.map_some']
    rw [show thresholdRow (1 / 20) r = ((0 : ℚ), (0 : ℚ), (0 : ℚ)) from by
      unfold thresholdRow
      rw [if_pos hlt]]
  · simp only [buildSeed]
    by_cases hc : ((seedRaw K cg fn t).data.map (thresholdRow (1 / 20))).any
        (fun r => decide (0 < r.2.2))
    · rw [if_pos hc]
      simp only [List.any_eq_true, decide_eq_true_eq] at hc
      obtain ⟨r, hr, hpos⟩ := hc
      constructor
      · intro hcontra
        cases hcontra
      · intro hall
        have := hall r hr
        exact absurd this (by linarith)
    · rw [if_neg hc]
      simp only [List.any_eq_true, decide_eq_true_eq, not_exists, not_and] at hc
      constructor
      · intro _ r hr
        rcases mem_threshold_conf (1 / 20) _ r hr with h0 | hge
        · exact h0
        · exact absurd (by linarith : (0 : ℚ) < r.2.2) (by exact hc r hr)
      · intro _
        rfl
  · intro a ha
    simp only [buildSeed] at ha
    by_cases hc : ((seedRaw K cg fn t).data.map (thresholdRow (1 / 20))).any
        (fun r => decide (0 < r.2.2))
    · rw [if_pos hc] at ha
      cases ha
      exact ⟨rfl, rfl, rfl⟩
    · rw [if_neg hc] at ha
      cases ha

theorem claim_C2_seed_blocks_witness :
    blockOf 4 1 (seedRaw 4 defaultCacheGroup 6 trackW).data = poseW.data ∧
    blockOf 4 0 (seedRaw 4 defaultCacheGroup 6 trackW).data
      = List.replicate 4 ((0 : ℚ), (0 : ℚ), (0 : ℚ)) ∧
    buildSeed 4 defaultCacheGroup 6 trackW ≠ none :=
  have h := claim_C2_seed_blocks 4 defaultCacheGroup 6 trackW (by decide)
  ⟨((h.1 1 (-1) (by decide) (by decide)).1 poseW (by with_unfolding_all decide)).1,
   h.2.1 (by decide),
   by with_unfolding_all decide⟩

/-! ## The frame transition ignores supplied initial annotations (claim C9) -/

/-- C9: the frame transition rebinds `initial_annotations` before use
(line 143), so two invocations differing only in that argument produce the
same output annotations and the same post-transition state. -/
theorem claim_C9_initial_anns_ignored {α : Type} (N K : ℕ) (cg : List ℤ) (kpt : ℚ)
    (gen : α → List TrackingAnn → List TrackingAnn) (fields : α) (s : DecoderState)
    (ia₁ ia₂ : Option (List TrackingAnn)) :
    transition N K cg kpt gen fields s ia₁ = transition N K cg kpt gen fields s ia₂ := rfl

/-! ## The occupancy sweep (claims C3, C4, C5) -/

theorem occGet_iff (occ : Occ) (f : ℕ) (x y : ℚ) :
    occGet occ f x y = true ↔ ∃ d ∈ occ f, withinDisk x y d := by
  simp [occGet, List.any_eq_true]

theorem occGet_false_iff (occ : Occ) (f : ℕ) (x y : ℚ) :
    occGet occ f x y = false ↔ ∀ d ∈ occ f, ¬ withinDisk x y d := by
  rw [← Bool.not_eq_true, occGet_iff]
  simp

theorem occSet_ne (occ : Occ) (f : ℕ) (x y s : ℚ) (g : ℕ) (h : g ≠ f) :
    occSet occ f x y s g = occ g := by
  simp [occSet, h]

theorem occSet_self (occ : Occ) (f : ℕ) (x y s : ℚ) :
    occSet occ f x y s f = ⟨x, y, max s 4⟩ :: occ f := by
  simp [occSet]

theorem occGet_congr (occ₁ occ₂ : Occ) (f : ℕ) (x y : ℚ) (h : occ₁ f = occ₂ f) :
    occGet occ₁ f x y = occGet occ₂ f x y := by
  simp [occGet, h]

theorem sweepRows_nil (occ : Occ) (f : ℕ) (ss : List ℚ) :
    sweepRows occ f [] ss = ([], occ) := by
  cases ss <;> rfl

theorem sweepRows_cons (occ : Occ) (f : ℕ) (r : Row) (rows : List Row) (s : ℚ)
    (ss : List ℚ) :
    sweepRows occ f (r :: rows) (s :: ss) =
      if r.2.2 = 0 then
        (r :: (sweepRows occ (f + 1) rows ss).1, (sweepRows occ (f + 1) rows ss).2)
      else if occGet occ f r.1 r.2.1 then
        ((r.1, r.2.1, 0) :: (sweepRows occ (f + 1) rows ss).1,
          (sweepRows occ (f + 1) rows ss).2)
      else
        (r :: (sweepRows (occSet occ f r.1 r.2.1 s) (f + 1) rows ss).1,
          (sweepRows (occSet occ f r.1 r.2.1 s) (f + 1) rows ss).2) := rfl

theorem sweepRows_length : ∀ (occ : Occ) (f : ℕ) (rows : List Row) (ss : List ℚ),
    (sweepRows occ f rows ss).1.length = rows.length
  | occ, f, [], ss => by rw [sweepRows_nil]
  | occ, f, r :: rows, [] => rfl
  | occ, f, r :: rows, s :: ss => by
    rw [sweepRows_cons]
    split
    · simp [sweepRows_length occ (f + 1) rows ss]
    · split
      · simp [sweepRows_length occ (f + 1) rows ss]
      · simp [sweepRows_length (occSet occ f r.1 r.2.1 s) (f + 1) rows ss]

theorem poseClaims_cons_succ (m : ℕ) (a : Row) (as : List Row) (b : ℚ) (bs : List ℚ) :
    poseClaims (m + 1) ⟨a :: as, b :: bs⟩ = poseClaims m ⟨as, bs⟩ := by
  simp [poseClaims]

theorem poseClaims_zero_cons (a : Row) (as : List Row) (b : ℚ) (bs : List ℚ) :
    poseClaims 0 ⟨a :: as, b :: bs⟩ = if a.2.2 = 0 then [] else [rowDisk a b] := by
  simp [poseClaims]

theorem poseClaims_nil_scales (f : ℕ) (rows : List Row) :
    poseClaims f ⟨rows, []⟩ = [] := by
  cases h : rows[f]? <;> simp [poseClaims, h]

theorem poseClaims_nil_rows (f : ℕ) (ss : List ℚ) :
    poseClaims f ⟨[], ss⟩ = [] := by
  cases h : ss[f]? <;> simp [poseClaims, h]

theorem sweepRows_rows : ∀ (occ : Occ) (f : ℕ) (rows : List Row) (ss : List ℚ)
    (j : ℕ) (r : Row), rows[j]? = some r →
    (sweepRows occ f rows ss).1[j]? = some (
      if j < ss.length then
        if r.2.2 = 0 then r
        else if occGet occ (f + j) r.1 r.2.1 = true then (r.1, r.2.1, 0) else r
      else r)
  | occ, f, [], ss, j, r => by
    intro hj
    simp at hj
  | occ, f, r0 :: rows, [], j, r => by
    intro hj
    have hrw : sweepRows occ f (r0 :: rows) [] = (r0 :: rows, occ) := rfl
    rw [hrw]
    simp [hj]
  | occ, f, r0 :: rows, s :: ss, 0, r => by
    intro hj
    simp only [List.getElem?_cons_zero, Option.some.injEq] at hj
    subst hj
    rw [sweepRows_cons]
    simp only [Nat.add_zero]
    by_cases h0 : r0.2.2 = 0
    · simp [h0]
    · by_cases hocc : occGet occ f r0.1 r0.2.1 = true
      · simp [h0, hocc]
      · simp [h0, hocc]
  | occ, f, r0 :: rows, s :: ss, j + 1, r => by
    intro hj
    simp only [List.getElem?_cons_succ] at hj
    rw [sweepRows_cons]
    have harith : f + (j + 1) = f + 1 + j := by omega
    split
    next h0 =>
      have ih := sweepRows_rows occ (f + 1) rows ss j r hj
      simp only [List.getElem?_cons_succ]
      rw [ih, harith]
      simp only [List.length_cons, Nat.add_lt_add_iff_right]
    next h0 =>
      split
      next hocc =>
        have ih := sweepRows_rows occ (f + 1) rows ss j r hj
        simp only [List.getElem?_cons_succ]
        rw [ih, harith]
        simp only [List.length_cons, Nat.add_lt_add_iff_right]
      next hocc =>
        have ih := sweepRows_rows (occSet occ f r0.1 r0.2.1 s) (f + 1) rows ss j r hj
        have hcongr : occGet (occSet occ f r0.1 r0.2.1 s) (f + 1 + j) r.1 r.2.1
            = occGet occ (f + 1 + j) r.1 r.2.1 :=
          occGet_congr _ _ _ _ _ (occSet_ne _ _ _ _ _ _ (by omega))
        simp only [List.getElem?_cons_succ]
        rw [ih, hcongr, harith]
        simp only [List.length_cons, Nat.add_lt_add_iff_right]

theorem sweepRows_occ_mem : ∀ (occ : Occ) (f : ℕ) (rows : List Row) (ss : List ℚ)
    (g : ℕ) (d : Disk),
    d ∈ (sweepRows occ f rows ss).2 g ↔
      d ∈ occ g ∨ (f ≤ g ∧ d ∈ poseClaims (g - f) ⟨(sweepRows occ f rows ss).1, ss⟩)
  | occ, f, [], ss, g, d => by
    rw [sweepRows_nil]
    simp [poseClaims_nil_rows]
  | occ, f, r0 :: rows, [], g, d => by
    simp [sweepRows, poseClaims_nil_scales]
  | occ, f, r0 :: rows, s :: ss, g, d => by
    rw [sweepRows_cons]
    rcases Nat.lt_trichotomy g f with hgf | hgf | hgf
    · -- g < f: channel untouched, claims out of range
      have hle : ¬ f ≤ g := by omega
      have hle1 : ¬ f + 1 ≤ g := by omega
      split
      next h0 =>
        have ih := sweepRows_occ_mem occ (f + 1) rows ss g d
        simp only [hle1, false_and, or_false] at ih
        simp [ih, hle]
      next h0 =>
        split
        next hocc =>
          have ih := sweepRows_occ_mem occ (f + 1) rows ss g d
          simp only [hle1, false_and, or_false] at ih
          simp [ih, hle]
        next hocc =>
          have ih := sweepRows_occ_mem (occSet occ f r0.1 r0.2.1 s) (f + 1) rows ss g d
          simp only [hle1, false_and, or_false] at ih
          rw [occSet_ne _ _ _ _ _ _ (by omega)] at ih
          simp [ih, hle]
    · -- g = f: this row's channel
      subst hgf
      have hle1 : ¬ g + 1 ≤ g := by omega
      have hsub : g - g = 0 := by omega
      split
      next h0 =>
        have ih := sweepRows_occ_mem occ (g + 1) rows ss g d
        simp only [hle1, false_and, or_false] at ih
        simp [ih, hsub, poseClaims_zero_cons, h0]
      next h0 =>
        split
        next hocc =>
          have ih := sweepRows_occ_mem occ (g + 1) rows ss g d
          simp only [hle1, false_and, or_false] at ih
          simp [ih, hsub, poseClaims_zero_cons]
        next hocc =>
          have ih := sweepRows_occ_mem (occSet occ g r0.1 r0.2.1 s) (g + 1) rows ss g d
          simp only [hle1, false_and, or_false] at ih
          rw [occSet_self] at ih
          simp only [List.mem_cons] at ih
          rw [ih]
          simp [hsub, poseClaims_zero_cons, h0, rowDisk]
          tauto
    · -- g > f: handled by the tail at index g - (f+1)
      have hle : f ≤ g := by omega
      have hle1 : f + 1 ≤ g := by omega
      have hsub : g - f = (g - (f + 1)) + 1 := by omega
      split
      next h0 =>
        have ih := sweepRows_occ_mem occ (f + 1) rows ss g d
        rw [ih, hsub, poseClaims_cons_succ]
        simp [hle, hle1]
      next h0 =>
        split
        next hocc =>
          have ih := sweepRows_occ_mem occ (f + 1) rows ss g d
          rw [ih, hsub, poseClaims_cons_succ]
          simp [hle, hle1]
        next hocc =>
          have ih := sweepRows_occ_mem (occSet occ f r0.1 r0.2.1 s) (f + 1) rows ss g d
          rw [occSet_ne _ _ _ _ _ _ (by omega)] at ih
          rw [ih, hsub, poseClaims_cons_succ]
          simp [hle, hle1]

theorem find?_update (fn : ℤ) (p : Pose) : ∀ (l : List (ℤ × Pose)),
    ((l.map (fun e => if e.1 = fn then (e.1, p) else e)).find? (fun e => e.1 == fn))
      = (l.find? (fun e => e.1 == fn)).map (fun _ => ((fn, p) : ℤ × Pose))
  | [] => rfl
  | e :: rest => by
    simp only [List.map_cons]
    by_cases h : e.1 = fn
    · rw [if_pos h, List.find?_cons_of_pos _ (by simp [h]),
        List.find?_cons_of_pos _ (by simp [h])]
      simp [h]
    · rw [if_neg h, List.find?_cons_of_neg _ (by simp [h]),
        List.find?_cons_of_neg _ (by simp [h])]
      exact find?_update fn p rest

theorem trackPose_updatePoseAt (t : Track) (fn : ℤ) (p : Pose) :
    trackPose (updatePoseAt t fn p) fn = (trackPose t fn).map (fun _ => p) := by
  unfold trackPose updatePoseAt
  simp only [List.reverse_map, find?_update, Option.map_map]
  rfl

theorem trackPose_eq_of_mem (t : Track) (fn : ℤ) (e : ℤ × Pose)
    (hnd : (t.frame_pose.map Prod.fst).Nodup) (he : e ∈ t.frame_pose) (hfn : e.1 = fn) :
    trackPose t fn = some e.2 := by
  unfold trackPose
  have hrev : e ∈ t.frame_pose.reverse := by rwa [List.mem_reverse]
  have hsome : (t.frame_pose.reverse.find? (fun x => x.1 == fn)).isSome := by
    rw [List.find?_isSome]
    exact ⟨e, hrev, by simp [hfn]⟩
  obtain ⟨e', he'⟩ := Option.isSome_iff_exists.mp hsome
  have hmem' := List.mem_of_find?_eq_some he'
  rw [List.mem_reverse] at hmem'
  have hfst' := List.find?_some he'
  simp only [beq_iff_eq] at hfst'
  have heq : e' = e := List.inj_on_of_nodup_map hnd hmem' he (by rw [hfst', hfn])
  rw [he', heq]
  rfl

theorem updatePoseAt_self (t : Track) (fn : ℤ) (p : Pose)
    (hnd : (t.frame_pose.map Prod.fst).Nodup) (h : trackPose t fn = some p) :
    updatePoseAt t fn p = t := by
  unfold updatePoseAt
  have hpoint : ∀ e ∈ t.frame_pose, (if e.1 = fn then (e.1, p) else e) = e := by
    intro e he
    by_cases hfn : e.1 = fn
    · rw [if_pos hfn]
      have h2 := trackPose_eq_of_mem t fn e hnd he hfn
      rw [h] at h2
      have hp : p = e.2 := by
        simpa using h2
      rw [hp]
    · rw [if_neg hfn]
  obtain ⟨tid, fp⟩ := t
  simp only
  congr 1
  rw [List.map_congr_left hpoint]
  exact List.map_id' fp

theorem updatePoseAt_fsts (t : Track) (fn : ℤ) (p : Pose) :
    (updatePoseAt t fn p).frame_pose.map Prod.fst = t.frame_pose.map Prod.fst := by
  unfold updatePoseAt
  simp only [List.map_map]
  apply List.map_congr_left
  intro e _
  by_cases h : e.1 = fn <;> simp [h]

theorem trackPose_thresholdTrack (kpt : ℚ) (sfn : ℤ) (t : Track) :
    trackPose (thresholdTrack kpt sfn t) sfn
      = (trackPose t sfn).map
          (fun p => ⟨p.data.map (thresholdRow kpt), p.joint_scales⟩) := by
  unfold thresholdTrack
  cases h : trackPose t sfn with
  | none => simp [h]
  | some p =>
    rw [trackPose_updatePoseAt, h]
    rfl

theorem thresholdTrack_fsts (kpt : ℚ) (sfn : ℤ) (t : Track) :
    (thresholdTrack kpt sfn t).frame_pose.map Prod.fst
      = t.frame_pose.map Prod.fst := by
  unfold thresholdTrack
  cases h : trackPose t sfn with
  | none => rfl
  | some p => exact updatePoseAt_fsts _ _ _

theorem thresholdTrack_id (kpt : ℚ) (sfn : ℤ) (t : Track) :
    (thresholdTrack kpt sfn t).id_ = t.id_ := by
  unfold thresholdTrack
  cases h : trackPose t sfn with
  | none => rfl
  | some p => rfl

theorem thresholdRow_idem (kpt : ℚ) (r : Row) :
    thresholdRow kpt (thresholdRow kpt r) = thresholdRow kpt r := by
  unfold thresholdRow
  by_cases h : r.2.2 < kpt
  · rw [if_pos h]
    split <;> rfl
  · rw [if_neg h, if_neg h]

theorem updatePoseAt_updatePoseAt (t : Track) (fn : ℤ) (p q : Pose) :
    updatePoseAt (updatePoseAt t fn p) fn q = updatePoseAt t fn q := by
  unfold updatePoseAt
  simp only [List.map_map]
  congr 1
  apply List.map_congr_left
  intro e _
  by_cases h : e.1 = fn <;> simp [h]

theorem thresholdTrack_idem (kpt : ℚ) (sfn : ℤ) (t : Track) :
    thresholdTrack kpt sfn (thresholdTrack kpt sfn t) = thresholdTrack kpt sfn t := by
  cases h : trackPose t sfn with
  | none =>
    have h1 : thresholdTrack kpt sfn t = t := by
      unfold thresholdTrack
      rw [h]
    rw [h1]
    exact h1
  | some p =>
    have h1 : thresholdTrack kpt sfn t
        = updatePoseAt t sfn ⟨p.data.map (thresholdRow kpt), p.joint_scales⟩ := by
      unfold thresholdTrack
      rw [h]
    rw [h1]
    unfold thresholdTrack
    rw [trackPose_updatePoseAt, h]
    simp only [Option.map_some']
    rw [updatePoseAt_updatePoseAt]
    congr 2
    simp only [List.map_map]
    apply List.map_congr_left
    intro r _
    simp [Function.comp, thresholdRow_idem]

theorem sweepOne_none (fn : ℤ) (occ : Occ) (t : Track) (h : trackPose t fn = none) :
    sweepOne fn occ t = (t, occ) := by
  unfold sweepOne
  rw [h]

theorem sweepOne_some (fn : ℤ) (occ : Occ) (t : Track) (p : Pose)
    (h : trackPose t fn = some p) :
    sweepOne fn occ t =
      (updatePoseAt t fn ⟨(sweepRows occ 0 p.data p.joint_scales).1, p.joint_scales⟩,
        (sweepRows occ 0 p.data p.joint_scales).2) := by
  unfold sweepOne
  rw [h]

theorem sweepTracks_cons (fn : ℤ) (occ : Occ) (e : ℕ × Track) (l : List (ℕ × Track)) :
    sweepTracks fn occ (e :: l) =
      ((e.1, (sweepOne fn occ e.2).1) :: (sweepTracks fn (sweepOne fn occ e.2).2 l).1,
        (sweepTracks fn (sweepOne fn occ e.2).2 l).2) := rfl

theorem trackClaims_of_pose (fn : ℤ) (f : ℕ) (t : Track) (p : Pose)
    (h : trackPose t fn = some p) : trackClaims fn f t = poseClaims f p := by
  unfold trackClaims
  rw [h]

theorem trackClaims_of_none (fn : ℤ) (f : ℕ) (t : Track)
    (h : trackPose t fn = none) : trackClaims fn f t = [] := by
  unfold trackClaims
  rw [h]

theorem sweepTracks_post (fn : ℤ) : ∀ (l : List (ℕ × Track)) (occ : Occ),
    (∀ (g : ℕ) (d : Disk), d ∈ (sweepTracks fn occ l).2 g ↔
        d ∈ occ g ∨ d ∈ ((sweepTracks fn occ l).1).flatMap (fun e => trackClaims fn g e.2)) ∧
      ∀ j, (hj : j < (sweepTracks fn occ l).1.length) →
        ∀ p, trackPose (((sweepTracks fn occ l).1.get ⟨j, hj⟩).2) fn = some p →
        ∀ f r s, p.data[f]? = some r → p.joint_scales[f]? = some s → r.2.2 ≠ 0 →
          occGet occ f r.1 r.2.1 = false ∧
          ∀ d ∈ (((sweepTracks fn occ l).1.take j)).flatMap
              (fun e => trackClaims fn f e.2), ¬ withinDisk r.1 r.2.1 d
  | [], occ => by
    constructor
    · intro g d
      simp [sweepTracks]
    · intro j hj
      simp [sweepTracks] at hj
  | e :: l, occ => by
    rw [sweepTracks_cons]
    cases hp : trackPose e.2 fn with
    | none =>
      rw [sweepOne_none fn occ e.2 hp]
      have ih := sweepTracks_post fn l occ
      constructor
      · intro g d
        rw [(ih.1 g d)]
        simp [trackClaims_of_none fn g e.2 hp]
      · intro j hj p hpose f r s hr hs hv
        match j, hj, hpose with
        | 0, hj, hpose =>
          simp only [List.get] at hpose
          rw [hp] at hpose
          cases hpose
        | j + 1, hj, hpose =>
          simp only [List.length_cons, Nat.add_lt_add_iff_right] at hj
          have hstep := ih.2 j hj p (by exact hpose) f r s hr hs hv
          refine ⟨hstep.1, ?_⟩
          intro d hd
          simp only [List.take_succ_cons, List.flatMap_cons,
            trackClaims_of_none fn f e.2 hp, List.nil_append] at hd
          exact hstep.2 d hd
    | some p0 =>
      rw [sweepOne_some fn occ e.2 p0 hp]
      dsimp only
      have hpose' : trackPose
          (updatePoseAt e.2 fn
            ⟨(sweepRows occ 0 p0.data p0.joint_scales).1, p0.joint_scales⟩) fn
          = some ⟨(sweepRows occ 0 p0.data p0.joint_scales).1, p0.joint_scales⟩ := by
        rw [trackPose_updatePoseAt, hp]
        rfl
      have hclaims1 : ∀ (g : ℕ) (d : Disk),
          d ∈ (sweepRows occ 0 p0.data p0.joint_scales).2 g ↔
            d ∈ occ g ∨ d ∈ trackClaims fn g
              (updatePoseAt e.2 fn
                ⟨(sweepRows occ 0 p0.data p0.joint_scales).1, p0.joint_scales⟩) := by
        intro g d
        rw [sweepRows_occ_mem occ 0 p0.data p0.joint_scales g d,
          trackClaims_of_pose fn g _ _ hpose']
        simp
      have ih := sweepTracks_post fn l (sweepRows occ 0 p0.data p0.joint_scales).2
      constructor
      · intro g d
        rw [ih.1 g d, List.flatMap_cons]
        rw [hclaims1 g d]
        simp only [List.mem_append]
        tauto
      · intro j hj p hpose f r s hr hs hv
        match j, hj, hpose with
        | 0, hj, hpose =>
          simp only [List.get] at hpose
          rw [hpose'] at hpose
          have hpeq : p = ⟨(sweepRows occ 0 p0.data p0.joint_scales).1, p0.joint_scales⟩ := by
            simpa using hpose.symm
          subst hpeq
          simp only at hr hs
          -- the surviving row is the original row, queried free against occ
          have hlen : f < p0.data.length := by
            have h1 : f < p0.joint_scales.length := by
              rw [List.getElem?_eq_some] at hs
              exact hs.1
            by_contra hcon
            have : f < (sweepRows occ 0 p0.data p0.joint_scales).1.length := by
              rw [List.getElem?_eq_some] at hr
              exact hr.1
            rw [sweepRows_length] at this
            omega
          obtain ⟨r0, hr0⟩ : ∃ r0, p0.data[f]? = some r0 := by
            rw [List.getElem?_eq_getElem hlen]
            exact ⟨_, rfl⟩
          have hsw := sweepRows_rows occ 0 p0.data p0.joint_scales f r0 hr0
          rw [hr] at hsw
          have hflen : f < p0.joint_scales.length := by
            rw [List.getElem?_eq_some] at hs
            exact hs.1
          rw [if_pos hflen] at hsw
          simp only [Nat.zero_add, Option.some.injEq] at hsw
          by_cases h00 : r0.2.2 = 0
          · rw [if_pos h00] at hsw
            subst hsw
            exact absurd h00 hv
          · rw [if_neg h00] at hsw
            by_cases hocc : occGet occ f r0.1 r0.2.1 = true
            · rw [if_pos hocc] at hsw
              subst hsw
              simp at hv
            · rw [if_neg hocc] at hsw
              subst hsw
              refine ⟨by simpa using hocc, ?_⟩
              intro d hd
              simp at hd
        | j + 1, hj, hpose =>
          simp only [List.length_cons, Nat.add_lt_add_iff_right] at hj
          have hstep := ih.2 j hj p (by exact hpose) f r s hr hs hv
          constructor
          · rw [occGet_false_iff]
            intro d hd
            have hfalse := hstep.1
            rw [occGet_false_iff] at hfalse
            apply hfalse
            rw [hclaims1 f d]
            exact Or.inl hd
          · intro d hd
            simp only [List.take_succ_cons, List.flatMap_cons, List.mem_append] at hd
            rcases hd with hd | hd
            · have hfalse := hstep.1
              rw [occGet_false_iff] at hfalse
              apply hfalse
              rw [hclaims1 f d]
              exact Or.inr hd
            · exact hstep.2 d hd

theorem sweepTracks_stable (fn : ℤ) : ∀ (l : List (ℕ × Track)) (occ : Occ),
    (∀ e ∈ l, (e.2.frame_pose.map Prod.fst).Nodup) →
    (∀ j, (hj : j < l.length) → ∀ p, trackPose ((l.get ⟨j, hj⟩).2) fn = some p →
      ∀ f r s, p.data[f]? = some r → p.joint_scales[f]? = some s → r.2.2 ≠ 0 →
        occGet occ f r.1 r.2.1 = false ∧
        ∀ d ∈ ((l.take j)).flatMap (fun e => trackClaims fn f e.2),
          ¬ withinDisk r.1 r.2.1 d) →
    (sweepTracks fn occ l).1 = l
  | [], occ => by
    intro _ _
    rfl
  | e :: l, occ => by
    intro hnd hstab
    rw [sweepTracks_cons]
    cases hp : trackPose e.2 fn with
    | none =>
      rw [sweepOne_none fn occ e.2 hp]
      dsimp only
      have ih := sweepTracks_stable fn l occ
        (fun x hx => hnd x (List.mem_cons_of_mem _ hx))
        (by
          intro j hj p hpose f r s hr hs hv
          have hstep := hstab (j + 1) (by simpa using Nat.add_lt_add_right hj 1)
            p (by exact hpose) f r s hr hs hv
          refine ⟨hstep.1, ?_⟩
          intro d hd
          apply hstep.2
          simp only [List.take_succ_cons, List.flatMap_cons,
            trackClaims_of_none fn f e.2 hp, List.nil_append]
          exact hd)
      rw [ih]
    | some p0 =>
      -- from stability at position 0: no row of p0 is suppressed
      have hrows : (sweepRows occ 0 p0.data p0.joint_scales).1 = p0.data := by
        apply List.ext_getElem?
        intro f
        cases hr0 : p0.data[f]? with
        | none =>
          apply List.getElem?_eq_none
          rw [sweepRows_length]
          exact List.getElem?_eq_none_iff.mp hr0
        | some r0 =>
          rw [sweepRows_rows occ 0 p0.data p0.joint_scales f r0 hr0]
          by_cases hflen : f < p0.joint_scales.length
          · rw [if_pos hflen]
            by_cases h00 : r0.2.2 = 0
            · rw [if_pos h00]
            · rw [if_neg h00]
              obtain ⟨s0, hs0⟩ : ∃ s0, p0.joint_scales[f]? = some s0 := by
                rw [List.getElem?_eq_getElem hflen]
                exact ⟨_, rfl⟩
              have hstep := hstab 0 (by simp) p0 (by exact hp) f r0 s0 hr0 hs0 h00
              rw [Nat.zero_add, hstep.1]
              simp
          · rw [if_neg hflen]
      rw [sweepOne_some fn occ e.2 p0 hp]
      dsimp only
      have hpose0 : (⟨(sweepRows occ 0 p0.data p0.joint_scales).1, p0.joint_scales⟩ : Pose)
          = p0 := by
        rw [hrows]
      have hupd : updatePoseAt e.2 fn
          ⟨(sweepRows occ 0 p0.data p0.joint_scales).1, p0.joint_scales⟩ = e.2 := by
        rw [hpose0]
        exact updatePoseAt_self e.2 fn p0 (hnd e (by simp)) hp
      rw [hupd]
      -- the claims accumulated are exactly this track's claims
      have hocc1 : ∀ (g : ℕ) (d : Disk),
          d ∈ (sweepRows occ 0 p0.data p0.joint_scales).2 g ↔
            d ∈ occ g ∨ d ∈ trackClaims fn g e.2 := by
        intro g d
        rw [sweepRows_occ_mem occ 0 p0.data p0.joint_scales g d,
          trackClaims_of_pose fn g e.2 p0 hp]
        simp [hpose0]
      have ih := sweepTracks_stable fn l (sweepRows occ 0 p0.data p0.joint_scales).2
        (fun x hx => hnd x (List.mem_cons_of_mem _ hx))
        (by
          intro j hj p hpose f r s hr hs hv
          have hstep := hstab (j + 1) (by simpa using Nat.add_lt_add_right hj 1)
            p (by exact hpose) f r s hr hs hv
          constructor
          · rw [occGet_false_iff]
            intro d hd
            rw [hocc1 f d] at hd
            rcases hd with hd | hd
            · have h1 := hstep.1
              rw [occGet_false_iff] at h1
              exact h1 d hd
            · apply hstep.2
              simp only [List.take_succ_cons, List.flatMap_cons, List.mem_append]
              exact Or.inl hd
          · intro d hd
            apply hstep.2
            simp only [List.take_succ_cons, List.flatMap_cons, List.mem_append]
            exact Or.inr hd)
      rw [ih]

theorem mem_of_getElem?' {γ : Type _} (l : List γ) (i : ℕ) (a : γ)
    (h : l[i]? = some a) : a ∈ l := by
  rw [List.getElem?_eq_some] at h
  obtain ⟨h1, h2⟩ := h
  exact h2 ▸ List.getElem_mem h1

theorem insertDesc_perm (key : α → ℚ) (a : α) :
    ∀ (l : List α), (insertDesc key a l).Perm (a :: l)
  | [] => List.Perm.refl _
  | b :: bs => by
    unfold insertDesc
    split
    · exact List.Perm.refl _
    · exact ((insertDesc_perm key a bs).cons b).trans (List.Perm.swap a b bs)

theorem sortDesc_perm (key : α → ℚ) : ∀ (l : List α), (sortDesc key l).Perm l
  | [] => List.Perm.refl _
  | a :: as =>
    (insertDesc_perm key a (sortDesc key as)).trans ((sortDesc_perm key as).cons a)

theorem insertDesc_sorted (key : α → ℚ) (a : α) :
    ∀ (l : List α), l.Sorted (fun x y => key y ≤ key x) →
      (insertDesc key a l).Sorted (fun x y => key y ≤ key x)
  | [], _ => by simp [insertDesc]
  | b :: bs, h => by
    unfold insertDesc
    split
    next hle =>
      rw [List.sorted_cons]
      refine ⟨?_, h⟩
      intro c hc
      rcases List.mem_cons.mp hc with rfl | hc
      · exact hle
      · exact ((List.sorted_cons.mp h).1 c hc).trans hle
    next hle =>
      rw [List.sorted_cons]
      obtain ⟨hb, hbs⟩ := List.sorted_cons.mp h
      refine ⟨?_, insertDesc_sorted key a bs hbs⟩
      intro c hc
      have hmem := (insertDesc_perm key a bs).mem_iff.mp hc
      rcases List.mem_cons.mp hmem with rfl | hc'
      · exact le_of_not_le hle
      · exact hb c hc'

theorem sortDesc_sorted (key : α → ℚ) : ∀ (l : List α),
    (sortDesc key l).Sorted (fun x y => key y ≤ key x)
  | [] => by simp [sortDesc]
  | a :: as => insertDesc_sorted key a _ (sortDesc_sorted key as)

theorem find?_fst_nodup {β : Type} : ∀ (l : List (ℕ × β)) (j : ℕ) (e : ℕ × β),
    (l.map Prod.fst).Nodup → l[j]? = some e →
    l.find? (fun x => x.1 == e.1) = some e
  | [], j, e => by simp
  | b :: bs, 0, e => by
    intro _ he
    simp only [List.getElem?_cons_zero, Option.some.injEq] at he
    subst he
    exact List.find?_cons_of_pos _ (by simp)
  | b :: bs, j + 1, e => by
    intro hnd he
    simp only [List.getElem?_cons_succ] at he
    rw [List.map_cons, List.nodup_cons] at hnd
    have hmem : e ∈ bs := mem_of_getElem?' bs j e he
    have hne : b.1 ≠ e.1 := by
      intro hcon
      exact hnd.1 (hcon ▸ List.mem_map_of_mem Prod.fst hmem)
    rw [List.find?_cons_of_neg _ (by simp [hne])]
    exact find?_fst_nodup bs j e hnd.2 he

theorem reassemble_perm (L : List Track) (l' : List (ℕ × Track))
    (h : l'.Perm (idxFrom 0 L)) : reassemble L.length l' = L := by
  have hF : ∀ j, j < L.length →
      ((l'.find? (fun e => e.1 == j)).map (fun e => e.2)) = L[j]? := by
    intro j hj
    have hmem : ((j, L.get ⟨j, hj⟩) : ℕ × Track) ∈ l' := by
      rw [h.mem_iff, mem_idxFrom]
      exact ⟨j, by omega, by rw [List.getElem?_eq_getElem hj]; rfl⟩
    have hsome : (l'.find? (fun e => e.1 == j)).isSome := by
      rw [List.find?_isSome]
      exact ⟨_, hmem, by simp⟩
    obtain ⟨e, he⟩ := Option.isSome_iff_exists.mp hsome
    have hmem2 := List.mem_of_find?_eq_some he
    rw [h.mem_iff, mem_idxFrom] at hmem2
    obtain ⟨m, hm1, hm2⟩ := hmem2
    have hfst := List.find?_some he
    simp only [beq_iff_eq] at hfst
    rw [he]
    simp only [Option.map_some']
    rw [← hm2]
    congr 1
    omega
  have hiso : ∀ b ∈ List.range L.length,
      (((l'.find? (fun e => e.1 == b)).map (fun e => e.2))).isSome := by
    intro b hb
    rw [List.mem_range] at hb
    rw [hF b hb, List.getElem?_eq_getElem hb]
    rfl
  obtain ⟨hlen, hget⟩ := filterMap_of_isSome _ (List.range L.length) hiso
  apply List.ext_getElem?
  intro i
  by_cases hi : i < L.length
  · unfold reassemble
    rw [hget i i (by rw [List.getElem?_range hi]), hF i hi]
  · unfold reassemble
    rw [List.getElem?_eq_none (by rw [hlen, List.length_range]; omega),
      List.getElem?_eq_none (by omega)]

theorem reassemble_entry (n : ℕ) (l' : List (ℕ × Track))
    (hperm : (l'.map Prod.fst).Perm (List.range n))
    (hnd : (l'.map Prod.fst).Nodup)
    (j : ℕ) (e : ℕ × Track) (he : l'[j]? = some e) :
    (reassemble n l')[e.1]? = some e.2 := by
  have hjn : e.1 < n := by
    have hm : e.1 ∈ l'.map Prod.fst :=
      List.mem_map_of_mem Prod.fst (mem_of_getElem?' l' j e he)
    rw [hperm.mem_iff, List.mem_range] at hm
    exact hm
  have hfind := find?_fst_nodup l' j e hnd he
  have hiso : ∀ b ∈ List.range n,
      (((l'.find? (fun x => x.1 == b)).map (fun x => x.2))).isSome := by
    intro b hb
    rw [List.mem_range] at hb
    have hbmem : b ∈ l'.map Prod.fst := by
      rw [hperm.mem_iff, List.mem_range]
      exact hb
    obtain ⟨x, hx, hxb⟩ := List.mem_map.mp hbmem
    have hs : (l'.find? (fun y => y.1 == b)).isSome := by
      rw [List.find?_isSome]
      exact ⟨x, hx, by simp [hxb]⟩
    rwa [Option.isSome_map']
  obtain ⟨hlen, hget⟩ := filterMap_of_isSome _ (List.range n) hiso
  unfold reassemble
  rw [hget e.1 e.1 (by rw [List.getElem?_range hjn]), hfind]
  rfl

theorem sweepTracks_fst (fn : ℤ) : ∀ (occ : Occ) (l : List (ℕ × Track)),
    ((sweepTracks fn occ l).1).map Prod.fst = l.map Prod.fst
  | occ, [] => rfl
  | occ, e :: l => by
    rw [sweepTracks_cons]
    dsimp only
    rw [List.map_cons, List.map_cons, sweepTracks_fst fn _ l]

theorem withinDisk_center (x y r0 : ℚ) : withinDisk x y ⟨x, y, r0⟩ := by
  unfold withinDisk
  have h1 : (x - x) * (x - x) + (y - y) * (y - y) = 0 := by ring
  rw [h1]
  exact mul_self_nonneg (2 * r0)

/-- C3: the per-frame suppression pass.  (i) Scenario: two candidate
tracks place the same keypoint channel `f` at the same position with the
same above-threshold confidence, and the first track's recency-weighted
score is higher: after `soft_nms` the first track keeps the row unchanged
and the second track's channel-`f` confidence is exactly 0.  (ii) Tracks
are visited in descending `score(frame_number, 0.01)` order.  (iii) In the
sweep a keypoint row with nonzero confidence is zeroed when the occupancy
grid holds a claim in reach of its channel, and otherwise keeps its value
and claims its own position at its joint scale. -/
theorem claim_C3_suppression (kpt : ℚ) (fn : ℤ) (A B : Track) (f : ℕ)
    (x y v sA sB : ℚ) (pA pB : Pose)
    (hkpt : 0 < kpt) (hv : kpt ≤ v)
    (hpA : trackPose A fn = some pA) (hpB : trackPose B fn = some pB)
    (hrA : pA.data[f]? = some (x, y, v)) (hsA : pA.joint_scales[f]? = some sA)
    (hrB : pB.data[f]? = some (x, y, v)) (hsB : pB.joint_scales[f]? = some sB)
    (hscore : trackScore (1 / 100) fn (thresholdTrack kpt fn B)
      < trackScore (1 / 100) fn (thresholdTrack kpt fn A)) :
    (∃ tA pA', (soft_nms kpt fn [A, B] fn)[0]? = some tA ∧
      trackPose tA fn = some pA' ∧ pA'.data[f]? = some (x, y, v)) ∧
    (∃ tB pB', (soft_nms kpt fn [A, B] fn)[1]? = some tB ∧
      trackPose tB fn = some pB' ∧
      pB'.data[f]? = some (((0 : ℚ), (0 : ℚ), (0 : ℚ)) : Row)) ∧
    (∀ (l : List (ℕ × Track)),
      (sortDesc (fun e => trackScore (1 / 100) fn e.2) l).Sorted
        (fun a b => trackScore (1 / 100) fn b.2 ≤ trackScore (1 / 100) fn a.2)) ∧
    (∀ (occ : Occ) (rows : List Row) (ss : List ℚ) (j : ℕ) (r : Row) (s : ℚ),
      rows[j]? = some r → ss[j]? = some s → r.2.2 ≠ 0 →
      (occGet occ (0 + j) r.1 r.2.1 = true →
          (sweepRows occ 0 rows ss).1[j]? = some (r.1, r.2.1, 0)) ∧
      (occGet occ (0 + j) r.1 r.2.1 = false →
          (sweepRows occ 0 rows ss).1[j]? = some r ∧
          rowDisk r s ∈ (sweepRows occ 0 rows ss).2 j)) := by
  have hvne : v ≠ 0 := by
    intro h
    rw [h] at hv
    exact absurd hkpt (not_lt.mpr hv)
  have hthrv : thresholdRow kpt ((x, y, v) : Row) = (x, y, v) := by
    unfold thresholdRow
    rw [if_neg (by simp only; exact not_lt.mpr hv)]
  -- the thresholded tracks and their poses
  have hposeA' : trackPose (thresholdTrack kpt fn A) fn
      = some ⟨pA.data.map (thresholdRow kpt), pA.joint_scales⟩ := by
    rw [trackPose_thresholdTrack, hpA]
    rfl
  have hposeB' : trackPose (thresholdTrack kpt fn B) fn
      = some ⟨pB.data.map (thresholdRow kpt), pB.joint_scales⟩ := by
    rw [trackPose_thresholdTrack, hpB]
    rfl
  have hrowA' : (pA.data.map (thresholdRow kpt))[f]? = some (x, y, v) := by
    rw [List.getElem?_map, hrA]
    simp [hthrv]
  have hrowB' : (pB.data.map (thresholdRow kpt))[f]? = some (x, y, v) := by
    rw [List.getElem?_map, hrB]
    simp [hthrv]
  have hflenA : f < pA.joint_scales.length := (List.getElem?_eq_some.mp hsA).1
  have hflenB : f < pB.joint_scales.length := (List.getElem?_eq_some.mp hsB).1
  -- processing A first: its row f survives and claims
  have houtA : (sweepRows emptyOcc 0 (pA.data.map (thresholdRow kpt))
      pA.joint_scales).1[f]? = some (x, y, v) := by
    rw [sweepRows_rows emptyOcc 0 _ _ f (x, y, v) hrowA', if_pos hflenA,
      if_neg (by simp only; exact hvne)]
    have hemp : occGet emptyOcc (0 + f) x y = false := rfl
    rw [if_neg (by rw [hemp]; simp)]
  have hclaimA : rowDisk (x, y, v) sA ∈ (sweepRows emptyOcc 0
      (pA.data.map (thresholdRow kpt)) pA.joint_scales).2 f := by
    rw [sweepRows_occ_mem]
    right
    refine ⟨Nat.zero_le f, ?_⟩
    rw [Nat.sub_zero]
    unfold poseClaims
    dsimp only
    rw [houtA, hsA]
    simp [hvne]
  -- processing B second: its row f is occupied and zeroed
  have hoccB : occGet ((sweepRows emptyOcc 0 (pA.data.map (thresholdRow kpt))
      pA.joint_scales).2) (0 + f) x y = true := by
    rw [Nat.zero_add, occGet_iff]
    exact ⟨rowDisk (x, y, v) sA, hclaimA, withinDisk_center x y _⟩
  have houtB : (sweepRows ((sweepRows emptyOcc 0 (pA.data.map (thresholdRow kpt))
      pA.joint_scales).2) 0 (pB.data.map (thresholdRow kpt))
      pB.joint_scales).1[f]? = some ((x, y, 0) : Row) := by
    rw [sweepRows_rows _ 0 _ _ f (x, y, v) hrowB', if_pos hflenB,
      if_neg (by simp only; exact hvne), if_pos hoccB]
  -- assembling soft_nms on [A, B]
  have hsort : sortDesc (fun e => trackScore (1 / 100) fn e.2)
      (idxFrom 0 [thresholdTrack kpt fn A, thresholdTrack kpt fn B])
      = [(0, thresholdTrack kpt fn A), (1, thresholdTrack kpt fn B)] := by
    show sortDesc _ [(0, thresholdTrack kpt fn A), (1, thresholdTrack kpt fn B)] = _
    simp only [sortDesc, insertDesc]
    rw [if_pos (le_of_lt hscore)]
  have hswA := sweepOne_some fn emptyOcc (thresholdTrack kpt fn A)
    ⟨pA.data.map (thresholdRow kpt), pA.joint_scales⟩ hposeA'
  have hswB := sweepOne_some fn ((sweepRows emptyOcc 0
      (pA.data.map (thresholdRow kpt)) pA.joint_scales).2) (thresholdTrack kpt fn B)
    ⟨pB.data.map (thresholdRow kpt), pB.joint_scales⟩ hposeB'
  have hswept : (sweepTracks fn emptyOcc
      [(0, thresholdTrack kpt fn A), (1, thresholdTrack kpt fn B)]).1
      = [(0, updatePoseAt (thresholdTrack kpt fn A) fn
            ⟨(sweepRows emptyOcc 0 (pA.data.map (thresholdRow kpt))
                pA.joint_scales).1, pA.joint_scales⟩),
         (1, updatePoseAt (thresholdTrack kpt fn B) fn
            ⟨(sweepRows ((sweepRows emptyOcc 0 (pA.data.map (thresholdRow kpt))
                pA.joint_scales).2) 0 (pB.data.map (thresholdRow kpt))
                pB.joint_scales).1, pB.joint_scales⟩)] := by
    rw [sweepTracks_cons]
    dsimp only
    rw [hswA]
    dsimp only
    rw [sweepTracks_cons]
    dsimp only
    rw [hswB]
    rfl
  have hsoft : soft_nms kpt fn [A, B] fn
      = (reassemble 2 ((sweepTracks fn emptyOcc
          (sortDesc (fun e => trackScore (1 / 100) fn e.2)
            (idxFrom 0 [thresholdTrack kpt fn A, thresholdTrack kpt fn B]))).1)).map
          (thresholdTrack kpt fn) := rfl
  rw [hsort, hswept] at hsoft
  have hreasm : reassemble 2
      [(0, updatePoseAt (thresholdTrack kpt fn A) fn
          ⟨(sweepRows emptyOcc 0 (pA.data.map (thresholdRow kpt))
              pA.joint_scales).1, pA.joint_scales⟩),
       (1, updatePoseAt (thresholdTrack kpt fn B) fn
          ⟨(sweepRows ((sweepRows emptyOcc 0 (pA.data.map (thresholdRow kpt))
              pA.joint_scales).2) 0 (pB.data.map (thresholdRow kpt))
              pB.joint_scales).1, pB.joint_scales⟩)]
      = [updatePoseAt (thresholdTrack kpt fn A) fn
          ⟨(sweepRows emptyOcc 0 (pA.data.map (thresholdRow kpt))
              pA.joint_scales).1, pA.joint_scales⟩,
         updatePoseAt (thresholdTrack kpt fn B) fn
          ⟨(sweepRows ((sweepRows emptyOcc 0 (pA.data.map (thresholdRow kpt))
              pA.joint_scales).2) 0 (pB.data.map (thresholdRow kpt))
              pB.joint_scales).1, pB.joint_scales⟩] := by
    have h1 : ([(0, updatePoseAt (thresholdTrack kpt fn A) fn
          ⟨(sweepRows emptyOcc 0 (pA.data.map (thresholdRow kpt))
              pA.joint_scales).1, pA.joint_scales⟩),
       (1, updatePoseAt (thresholdTrack kpt fn B) fn
          ⟨(sweepRows ((sweepRows emptyOcc 0 (pA.data.map (thresholdRow kpt))
              pA.joint_scales).2) 0 (pB.data.map (thresholdRow kpt))
              pB.joint_scales).1, pB.joint_scales⟩)] : List (ℕ × Track))
        = idxFrom 0 [updatePoseAt (thresholdTrack kpt fn A) fn
          ⟨(sweepRows emptyOcc 0 (pA.data.map (thresholdRow kpt))
              pA.joint_scales).1, pA.joint_scales⟩,
         updatePoseAt (thresholdTrack kpt fn B) fn
          ⟨(sweepRows ((sweepRows emptyOcc 0 (pA.data.map (thresholdRow kpt))
              pA.joint_scales).2) 0 (pB.data.map (thresholdRow kpt))
              pB.joint_scales).1, pB.joint_scales⟩] := rfl
    rw [h1]
    exact reassemble_perm _ _ (List.Perm.refl _)
  rw [hreasm] at hsoft
  refine ⟨?_, ?_, ?_, ?_⟩
  · -- track A keeps its row
    refine ⟨thresholdTrack kpt fn (updatePoseAt (thresholdTrack kpt fn A) fn
        ⟨(sweepRows emptyOcc 0 (pA.data.map (thresholdRow kpt))
            pA.joint_scales).1, pA.joint_scales⟩),
      ⟨((sweepRows emptyOcc 0 (pA.data.map (thresholdRow kpt))
            pA.joint_scales).1).map (thresholdRow kpt), pA.joint_scales⟩,
      by rw [hsoft]; rfl, ?_, ?_⟩
    · rw [trackPose_thresholdTrack, trackPose_updatePoseAt, hposeA']
      rfl
    · dsimp only
      rw [List.getElem?_map, houtA]
      simp [hthrv]
  · -- track B's row is zeroed
    refine ⟨thresholdTrack kpt fn (updatePoseAt (thresholdTrack kpt fn B) fn
        ⟨(sweepRows ((sweepRows emptyOcc 0 (pA.data.map (thresholdRow kpt))
            pA.joint_scales).2) 0 (pB.data.map (thresholdRow kpt))
            pB.joint_scales).1, pB.joint_scales⟩),
      ⟨((sweepRows ((sweepRows emptyOcc 0 (pA.data.map (thresholdRow kpt))
            pA.joint_scales).2) 0 (pB.data.map (thresholdRow kpt))
            pB.joint_scales).1).map (thresholdRow kpt), pB.joint_scales⟩,
      by rw [hsoft]; rfl, ?_, ?_⟩
    · rw [trackPose_thresholdTrack, trackPose_updatePoseAt, hposeB']
      rfl
    · dsimp only
      rw [List.getElem?_map, houtB]
      have hthr0 : thresholdRow kpt ((x, y, 0) : Row) = ((0 : ℚ), (0 : ℚ), (0 : ℚ)) := by
        unfold thresholdRow
        rw [if_pos (by simp only; exact hkpt)]
      simp [hthr0]
  · intro l
    exact sortDesc_sorted _ l
  · intro occ rows ss j r s hr hs hv'
    have hjlen : j < ss.length := (List.getElem?_eq_some.mp hs).1
    constructor
    · intro hocc
      rw [sweepRows_rows occ 0 rows ss j r hr, if_pos hjlen, if_neg hv', if_pos hocc]
    · intro hocc
      have hout : (sweepRows occ 0 rows ss).1[j]? = some r := by
        rw [sweepRows_rows occ 0 rows ss j r hr, if_pos hjlen, if_neg hv',
          if_neg (by rw [hocc]; simp)]
      refine ⟨hout, ?_⟩
      rw [sweepRows_occ_mem occ 0 rows ss j (rowDisk r s)]
      right
      refine ⟨Nat.zero_le j, ?_⟩
      rw [Nat.sub_zero]
      unfold poseClaims
      dsimp only
      rw [hout, hs]
      simp [hv']

/-- Witness for C3: on the concrete pair `cwA`, `cwB` sharing keypoint 0 at
(5, 5) with confidence 9/10, `soft_nms` zeroes the lower-scored track's
keypoint. -/
theorem claim_C3_suppression_witness :
    ((0 : ℚ) < 1 / 10) ∧
    (∃ tB pB', (soft_nms (1 / 10) 1 [cwA, cwB] 1)[1]? = some tB ∧
      trackPose tB 1 = some pB' ∧
      pB'.data[0]? = some (((0 : ℚ), (0 : ℚ), (0 : ℚ)) : Row)) :=
  ⟨by with_unfolding_all decide,
   (claim_C3_suppression (1 / 10) 1 cwA cwB 0 5 5 (9 / 10) 1 1 pwA pwB
      (by with_unfolding_all decide) (by with_unfolding_all decide)
      rfl rfl rfl rfl rfl rfl
      (by with_unfolding_all decide)).2.1⟩

theorem soft_nms_ne (kpt : ℚ) (sfn : ℤ) (tracks : List Track) (fn : ℤ)
    (h : tracks ≠ []) :
    soft_nms kpt sfn tracks fn
      = (reassemble tracks.length
          ((sweepTracks fn emptyOcc (sortDesc (fun e => trackScore (1 / 100) fn e.2)
            (idxFrom 0 (tracks.map (thresholdTrack kpt sfn))))).1)).map
          (thresholdTrack kpt sfn) := by
  unfold soft_nms
  rw [if_neg (by simp [h])]
  simp only [List.length_map]

theorem sweepOne_fsts (fn : ℤ) (occ : Occ) (t : Track) :
    ((sweepOne fn occ t).1).frame_pose.map Prod.fst = t.frame_pose.map Prod.fst := by
  cases hp : trackPose t fn with
  | none => rw [sweepOne_none fn occ t hp]
  | some p =>
    rw [sweepOne_some fn occ t p hp]
    exact updatePoseAt_fsts _ _ _

theorem sweepTracks_mem_fsts (fn : ℤ) : ∀ (occ : Occ) (l : List (ℕ × Track)),
    ∀ e ∈ (sweepTracks fn occ l).1, ∃ e' ∈ l,
      (e.2).frame_pose.map Prod.fst = (e'.2).frame_pose.map Prod.fst
  | occ, [] => by
    intro e he
    simp [sweepTracks] at he
  | occ, a :: l => by
    intro e he
    rw [sweepTracks_cons] at he
    dsimp only at he
    rcases List.mem_cons.mp he with h | h
    · subst h
      exact ⟨a, by simp, sweepOne_fsts fn occ a.2⟩
    · obtain ⟨e', he', heq⟩ := sweepTracks_mem_fsts fn (sweepOne fn occ a.2).2 l e h
      exact ⟨e', by simp [he'], heq⟩

theorem thresholdRow_nonzero (kpt : ℚ) (r : Row)
    (h : (thresholdRow kpt r).2.2 ≠ 0) : thresholdRow kpt r = r := by
  unfold thresholdRow at h ⊢
  by_cases hlt : r.2.2 < kpt
  · rw [if_pos hlt] at h
    simp at h
  · rw [if_neg hlt]

theorem trackClaims_thr_subset (kpt : ℚ) (fn : ℤ) (f : ℕ) (t : Track) :
    ∀ d ∈ trackClaims fn f (thresholdTrack kpt fn t), d ∈ trackClaims fn f t := by
  intro d hd
  unfold trackClaims at hd ⊢
  rw [trackPose_thresholdTrack] at hd
  cases hp : trackPose t fn with
  | none =>
    rw [hp] at hd
    simp at hd
  | some p =>
    rw [hp] at hd
    simp only [Option.map_some'] at hd
    unfold poseClaims at hd ⊢
    dsimp only at hd
    rw [List.getElem?_map] at hd
    cases hr : p.data[f]? with
    | none =>
      rw [hr] at hd
      simp at hd
    | some r =>
      rw [hr] at hd
      simp only [Option.map_some'] at hd
      cases hs : p.joint_scales[f]? with
      | none =>
        rw [hs] at hd
        simp at hd
      | some s =>
        rw [hs] at hd
        dsimp only at hd
        by_cases hz : (thresholdRow kpt r).2.2 = 0
        · rw [if_pos hz] at hd
          simp at hd
        · rw [if_neg hz] at hd
          simp only [List.mem_singleton] at hd
          have hkeep : thresholdRow kpt r = r := thresholdRow_nonzero kpt r hz
          rw [hkeep] at hd
          have hrne : r.2.2 ≠ 0 := by
            rw [hkeep] at hz
            exact hz
          dsimp only
          rw [hr, hs]
          dsimp only
          rw [if_neg hrne]
          simp [hd]

theorem reassemble_length (n : ℕ) (l' : List (ℕ × Track))
    (hperm : (l'.map Prod.fst).Perm (List.range n)) :
    (reassemble n l').length = n := by
  have hiso : ∀ b ∈ List.range n,
      ((l'.find? (fun x => x.1 == b)).map (fun x => x.2)).isSome := by
    intro b hb
    have hbmem : b ∈ l'.map Prod.fst := hperm.mem_iff.mpr hb
    obtain ⟨x, hx, hxb⟩ := List.mem_map.mp hbmem
    have hs : (l'.find? (fun y => y.1 == b)).isSome := by
      rw [List.find?_isSome]
      exact ⟨x, hx, by simp [hxb]⟩
    rwa [Option.isSome_map']
  have h1 := (filterMap_of_isSome _ (List.range n) hiso).1
  unfold reassemble
  rw [h1, List.length_range]

/-- C4 (amended): when the descending score order of the tracks is the same
before and after the first suppression pass, running `soft_nms` a second
time on its own output changes nothing: the second pass re-threshold is the
identity on already-thresholded rows and, by the first pass's
postcondition, every surviving keypoint is claim-free against the claims
of the tracks processed before it, so no further keypoint is zeroed. -/
theorem claim_C4_idempotent_amended (kpt : ℚ) (fn : ℤ) (tracks : List Track)
    (hnd : ∀ t ∈ tracks, (t.frame_pose.map Prod.fst).Nodup)
    (horder : nmsOrder kpt fn (soft_nms kpt fn tracks fn) fn
      = nmsOrder kpt fn tracks fn) :
    soft_nms kpt fn (soft_nms kpt fn tracks fn) fn = soft_nms kpt fn tracks fn := by
  by_cases hT : tracks = []
  · subst hT
    rfl
  have hout : soft_nms kpt fn tracks fn
      = (reassemble tracks.length
          ((sweepTracks fn emptyOcc (sortDesc (fun e => trackScore (1 / 100) fn e.2)
            (idxFrom 0 (tracks.map (thresholdTrack kpt fn))))).1)).map
          (thresholdTrack kpt fn) := soft_nms_ne kpt fn tracks fn hT
  have hperm_sfst : ((sortDesc (fun e => trackScore (1 / 100) fn e.2)
      (idxFrom 0 (tracks.map (thresholdTrack kpt fn)))).map Prod.fst).Perm
      (List.range tracks.length) := by
    have h1 := (sortDesc_perm (fun e => trackScore (1 / 100) fn e.2)
      (idxFrom 0 (tracks.map (thresholdTrack kpt fn)))).map Prod.fst
    rw [idxFrom_map_fst, List.length_map, ← List.range_eq_range'] at h1
    exact h1
  have hnd_sfst : ((sortDesc (fun e => trackScore (1 / 100) fn e.2)
      (idxFrom 0 (tracks.map (thresholdTrack kpt fn)))).map Prod.fst).Nodup :=
    hperm_sfst.nodup_iff.mpr (List.nodup_range _)
  have hswfst := sweepTracks_fst fn emptyOcc (sortDesc (fun e => trackScore (1 / 100) fn e.2)
      (idxFrom 0 (tracks.map (thresholdTrack kpt fn))))
  have hperm_swfst : (((sweepTracks fn emptyOcc (sortDesc (fun e => trackScore (1 / 100) fn e.2)
      (idxFrom 0 (tracks.map (thresholdTrack kpt fn))))).1).map Prod.fst).Perm
      (List.range tracks.length) := by
    rw [hswfst]
    exact hperm_sfst
  have hnd_swfst : (((sweepTracks fn emptyOcc (sortDesc (fun e => trackScore (1 / 100) fn e.2)
      (idxFrom 0 (tracks.map (thresholdTrack kpt fn))))).1).map Prod.fst).Nodup := by
    rw [hswfst]
    exact hnd_sfst
  have hlen_sw : ((sweepTracks fn emptyOcc (sortDesc (fun e => trackScore (1 / 100) fn e.2)
      (idxFrom 0 (tracks.map (thresholdTrack kpt fn))))).1).length = tracks.length := by
    have h1 := hperm_swfst.length_eq
    simpa using h1
  have hlen_out : (soft_nms kpt fn tracks fn).length = tracks.length := by
    rw [hout, List.length_map, reassemble_length tracks.length _ hperm_swfst]
  have hout_entry : ∀ (j : ℕ) (e : ℕ × Track),
      ((sweepTracks fn emptyOcc (sortDesc (fun e => trackScore (1 / 100) fn e.2)
        (idxFrom 0 (tracks.map (thresholdTrack kpt fn))))).1)[j]? = some e →
      (soft_nms kpt fn tracks fn)[e.1]? = some (thresholdTrack kpt fn e.2) := by
    intro j e he
    rw [hout, List.getElem?_map,
      reassemble_entry tracks.length _ hperm_swfst hnd_swfst j e he]
    rfl
  have hmap_out : (soft_nms kpt fn tracks fn).map (thresholdTrack kpt fn)
      = soft_nms kpt fn tracks fn := by
    rw [hout, List.map_map]
    apply List.map_congr_left
    intro t _
    simp only [Function.comp_apply]
    exact thresholdTrack_idem kpt fn t
  have hconv : ∀ (l : List (ℕ × Track)),
      l.map (fun e => e.1) = l.map Prod.fst := fun l => rfl
  have hord : (sortDesc (fun e => trackScore (1 / 100) fn e.2)
        (idxFrom 0 (soft_nms kpt fn tracks fn))).map Prod.fst
      = (sortDesc (fun e => trackScore (1 / 100) fn e.2)
        (idxFrom 0 (tracks.map (thresholdTrack kpt fn)))).map Prod.fst := by
    have h1 := horder
    unfold nmsOrder at h1
    rw [hmap_out, hconv, hconv] at h1
    exact h1
  have hlen2 : (sortDesc (fun e => trackScore (1 / 100) fn e.2)
      (idxFrom 0 (soft_nms kpt fn tracks fn))).length = tracks.length := by
    have h1 := (sortDesc_perm (fun e => trackScore (1 / 100) fn e.2)
      (idxFrom 0 (soft_nms kpt fn tracks fn))).length_eq
    rw [idxFrom_length, hlen_out] at h1
    exact h1
  have hsorted2 : sortDesc (fun e => trackScore (1 / 100) fn e.2)
        (idxFrom 0 (soft_nms kpt fn tracks fn))
      = ((sweepTracks fn emptyOcc (sortDesc (fun e => trackScore (1 / 100) fn e.2)
          (idxFrom 0 (tracks.map (thresholdTrack kpt fn))))).1).map
          (fun e => (e.1, thresholdTrack kpt fn e.2)) := by
    apply List.ext_getElem?
    intro j
    by_cases hj : j < tracks.length
    · obtain ⟨e2, he2⟩ : ∃ e2, (sortDesc (fun e => trackScore (1 / 100) fn e.2)
          (idxFrom 0 (soft_nms kpt fn tracks fn)))[j]? = some e2 := by
        rw [List.getElem?_eq_getElem (by rw [hlen2]; exact hj)]
        exact ⟨_, rfl⟩
      obtain ⟨e, he⟩ : ∃ e, ((sweepTracks fn emptyOcc
          (sortDesc (fun e => trackScore (1 / 100) fn e.2)
            (idxFrom 0 (tracks.map (thresholdTrack kpt fn))))).1)[j]? = some e := by
        rw [List.getElem?_eq_getElem (by rw [hlen_sw]; exact hj)]
        exact ⟨_, rfl⟩
      rw [he2, List.getElem?_map, he]
      have hfst : e2.1 = e.1 := by
        have h1 : ((sortDesc (fun e => trackScore (1 / 100) fn e.2)
            (idxFrom 0 (soft_nms kpt fn tracks fn))).map Prod.fst)[j]? = some e2.1 := by
          rw [List.getElem?_map, he2]
          rfl
        rw [hord, ← hswfst, List.getElem?_map, he] at h1
        have h2 : e.1 = e2.1 := by simpa using h1
        exact h2.symm
      have hm : e2 ∈ idxFrom 0 (soft_nms kpt fn tracks fn) :=
        (sortDesc_perm _ _).subset (mem_of_getElem?' _ j e2 he2)
      obtain ⟨m, hm1, hm2⟩ := (mem_idxFrom _ 0 e2).mp hm
      have hment := hout_entry j e he
      have hmeq : m = e.1 := by
        rw [← hfst]
        omega
      rw [hmeq, hment] at hm2
      have hsnd : e2.2 = thresholdTrack kpt fn e.2 := by
        simpa using hm2.symm
      obtain ⟨a, b⟩ := e2
      simp only at hfst hsnd
      rw [hfst, hsnd]
      rfl
    · rw [List.getElem?_eq_none (by rw [hlen2]; omega),
        List.getElem?_eq_none (by rw [List.length_map, hlen_sw]; omega)]
  have hnd2 : ∀ e ∈ ((sweepTracks fn emptyOcc
      (sortDesc (fun e => trackScore (1 / 100) fn e.2)
        (idxFrom 0 (tracks.map (thresholdTrack kpt fn))))).1).map
      (fun e => (e.1, thresholdTrack kpt fn e.2)),
      ((e.2).frame_pose.map Prod.fst).Nodup := by
    intro e he
    obtain ⟨e', he', rfl⟩ := List.mem_map.mp he
    dsimp only
    rw [thresholdTrack_fsts]
    obtain ⟨e'', he'', heq2⟩ := sweepTracks_mem_fsts fn emptyOcc _ e' he'
    rw [heq2]
    have hmem3 : e'' ∈ idxFrom 0 (tracks.map (thresholdTrack kpt fn)) :=
      (sortDesc_perm _ _).subset he''
    obtain ⟨m, _, hm2⟩ := (mem_idxFrom _ 0 e'').mp hmem3
    have hmem4 : e''.2 ∈ tracks.map (thresholdTrack kpt fn) :=
      mem_of_getElem?' _ m _ hm2
    obtain ⟨t0, ht0, heq3⟩ := List.mem_map.mp hmem4
    rw [← heq3, thresholdTrack_fsts]
    exact hnd t0 ht0
  have hpost := sweepTracks_post fn (sortDesc (fun e => trackScore (1 / 100) fn e.2)
      (idxFrom 0 (tracks.map (thresholdTrack kpt fn)))) emptyOcc
  have hstab : ∀ j, (hj : j < (((sweepTracks fn emptyOcc
        (sortDesc (fun e => trackScore (1 / 100) fn e.2)
          (idxFrom 0 (tracks.map (thresholdTrack kpt fn))))).1).map
        (fun e => (e.1, thresholdTrack kpt fn e.2))).length) →
      ∀ p, trackPose (((((sweepTracks fn emptyOcc
          (sortDesc (fun e => trackScore (1 / 100) fn e.2)
            (idxFrom 0 (tracks.map (thresholdTrack kpt fn))))).1).map
          (fun e => (e.1, thresholdTrack kpt fn e.2))).get ⟨j, hj⟩).2) fn = some p →
      ∀ f r s, p.data[f]? = some r → p.joint_scales[f]? = some s → r.2.2 ≠ 0 →
        occGet emptyOcc f r.1 r.2.1 = false ∧
        ∀ d ∈ ((((sweepTracks fn emptyOcc
            (sortDesc (fun e => trackScore (1 / 100) fn e.2)
              (idxFrom 0 (tracks.map (thresholdTrack kpt fn))))).1).map
            (fun e => (e.1, thresholdTrack kpt fn e.2))).take j).flatMap
            (fun e => trackClaims fn f e.2), ¬ withinDisk r.1 r.2.1 d := by
    intro j hj p hpose f r s hr hs hv
    have hj' : j < ((sweepTracks fn emptyOcc
        (sortDesc (fun e => trackScore (1 / 100) fn e.2)
          (idxFrom 0 (tracks.map (thresholdTrack kpt fn))))).1).length := by
      simpa using hj
    have hget : (((((sweepTracks fn emptyOcc
        (sortDesc (fun e => trackScore (1 / 100) fn e.2)
          (idxFrom 0 (tracks.map (thresholdTrack kpt fn))))).1).map
        (fun e => (e.1, thresholdTrack kpt fn e.2))).get ⟨j, hj⟩).2)
        = thresholdTrack kpt fn ((((sweepTracks fn emptyOcc
          (sortDesc (fun e => trackScore (1 / 100) fn e.2)
            (idxFrom 0 (tracks.map (thresholdTrack kpt fn))))).1).get ⟨j, hj'⟩).2) := by
      simp [List.get_eq_getElem, List.getElem_map]
    rw [hget, trackPose_thresholdTrack] at hpose
    obtain ⟨p0, hp0, hpeq⟩ := Option.map_eq_some'.mp hpose
    subst hpeq
    dsimp only at hr hs
    rw [List.getElem?_map] at hr
    obtain ⟨r0, hr0, hreq⟩ := Option.map_eq_some'.mp hr
    have hr0r : r0 = r := by
      have h2 : (thresholdRow kpt r0).2.2 ≠ 0 := by
        rw [hreq]
        exact hv
      exact (thresholdRow_nonzero kpt r0 h2).symm.trans hreq
    rw [hr0r] at hr0
    have hstep := hpost.2 j hj' p0 hp0 f r s hr0 hs hv
    refine ⟨hstep.1, ?_⟩
    intro d hd
    apply hstep.2 d
    rw [← List.map_take, List.flatMap_map] at hd
    obtain ⟨a, ha, hda⟩ := List.mem_flatMap.mp hd
    dsimp only at hda
    exact List.mem_flatMap.mpr ⟨a, ha, trackClaims_thr_subset kpt fn f a.2 d hda⟩
  have hstable := sweepTracks_stable fn (((sweepTracks fn emptyOcc
      (sortDesc (fun e => trackScore (1 / 100) fn e.2)
        (idxFrom 0 (tracks.map (thresholdTrack kpt fn))))).1).map
      (fun e => (e.1, thresholdTrack kpt fn e.2))) emptyOcc hnd2 hstab
  have hne2 : soft_nms kpt fn tracks fn ≠ [] := by
    intro hc
    have h0 : tracks.length = 0 := by
      rw [← hlen_out, hc]
      rfl
    exact hT (List.length_eq_zero.mp h0)
  rw [soft_nms_ne kpt fn (soft_nms kpt fn tracks fn) fn hne2, hmap_out, hsorted2, hstable]
  have hre : reassemble (soft_nms kpt fn tracks fn).length
      (((sweepTracks fn emptyOcc (sortDesc (fun e => trackScore (1 / 100) fn e.2)
        (idxFrom 0 (tracks.map (thresholdTrack kpt fn))))).1).map
        (fun e => (e.1, thresholdTrack kpt fn e.2)))
      = soft_nms kpt fn tracks fn := by
    apply reassemble_perm
    rw [← hsorted2]
    exact sortDesc_perm _ _
  rw [hre]
  exact hmap_out

/-- Counterexample to C4 as stated: on the three-track instance
`[c4T1, c4T2, c4T3]` the first pass zeroes T2's keypoint 0, which drops
T2's score below T3's; on the second pass T3 is processed before T2 and
its large scale-10 claim at (100, 15) now suppresses T2's keypoint 1 at
(100, 0), so the second pass removes a further keypoint (3 positive
keypoints after one pass, 2 after two). -/
theorem claim_C4_idempotent_counterexample :
    countPositive 10 (soft_nms (1 / 10) 10
        (soft_nms (1 / 10) 10 [c4T1, c4T2, c4T3] 10) 10)
      ≠ countPositive 10 (soft_nms (1 / 10) 10 [c4T1, c4T2, c4T3] 10) := by
  with_unfolding_all decide

/-- Witness for the amended C4: the pair `cw4A`, `cw4B` has a genuine
suppression on the first pass but an unchanged score order, and a second
`soft_nms` is the identity on the result. -/
theorem claim_C4_idempotent_amended_witness :
    (nmsOrder (1 / 10) 1 (soft_nms (1 / 10) 1 [cw4A, cw4B] 1) 1
      = nmsOrder (1 / 10) 1 [cw4A, cw4B] 1) ∧
    soft_nms (1 / 10) 1 (soft_nms (1 / 10) 1 [cw4A, cw4B] 1) 1
      = soft_nms (1 / 10) 1 [cw4A, cw4B] 1 :=
  ⟨by with_unfolding_all decide,
   claim_C4_idempotent_amended (1 / 10) 1 [cw4A, cw4B]
     (by with_unfolding_all decide)
     (by with_unfolding_all decide)⟩

theorem le_foldr_max : ∀ (l : List ℕ) (x : ℕ), x ∈ l → x ≤ l.foldr max 0
  | a :: l, x, hx => by
    rcases List.mem_cons.mp hx with h | h
    · subst h
      exact le_max_left _ _
    · exact le_trans (le_foldr_max l x h) (le_max_right _ _)

theorem maxLen_bound (fn : ℤ) (tracks : List Track) (t : Track) (p : Pose)
    (ht : t ∈ tracks) (hp : trackPose t fn = some p) :
    p.data.length ≤ maxLen fn tracks := by
  unfold maxLen
  apply le_foldr_max
  have h0 : (match trackPose t fn with
      | some p => p.data.length
      | none => 0) = p.data.length := by
    rw [hp]
  rw [← h0]
  exact List.mem_map_of_mem _ ht

theorem nodup_fst_ne {β : Type} (l : List (ℕ × β)) (hndl : (l.map Prod.fst).Nodup)
    (j j' : ℕ) (e e' : ℕ × β) (hje : l[j]? = some e) (hje' : l[j']? = some e')
    (hjj : j ≠ j') : e.1 ≠ e'.1 := by
  intro heq
  have hj : j < l.length := (List.getElem?_eq_some.mp hje).1
  have hj' : j' < l.length := (List.getElem?_eq_some.mp hje').1
  have hjm : j < (l.map Prod.fst).length := by simpa using hj
  have hjm' : j' < (l.map Prod.fst).length := by simpa using hj'
  have h1 : (l.map Prod.fst)[j]? = some e.1 := by
    rw [List.getElem?_map, hje]
    rfl
  have h2 : (l.map Prod.fst)[j']? = some e'.1 := by
    rw [List.getElem?_map, hje']
    rfl
  have h1' : (l.map Prod.fst).get ⟨j, hjm⟩ = e.1 := by
    simp only [List.get_eq_getElem]
    have h0 := List.getElem?_eq_getElem hjm
    rw [h1] at h0
    exact Option.some_inj.mp h0.symm
  have h2' : (l.map Prod.fst).get ⟨j', hjm'⟩ = e'.1 := by
    simp only [List.get_eq_getElem]
    have h0 := List.getElem?_eq_getElem hjm'
    rw [h2] at h0
    exact Option.some_inj.mp h0.symm
  have hfin : (⟨j, hjm⟩ : Fin (l.map Prod.fst).length) = ⟨j', hjm'⟩ :=
    hndl.get_inj_iff.mp (h1'.trans (heq.trans h2'.symm))
  exact hjj (congrArg Fin.val hfin)

theorem stab_of_conflict_free (kpt : ℚ) (fn : ℤ) (tracks : List Track)
    (hcf : ConflictFree fn tracks) (l : List (ℕ × Track))
    (hl : ∀ (j : ℕ) (e : ℕ × Track), l[j]? = some e →
      e.1 < tracks.length ∧ (tracks[e.1]?).map (thresholdTrack kpt fn) = some e.2)
    (hndl : (l.map Prod.fst).Nodup) :
    ∀ j, (hj : j < l.length) → ∀ p, trackPose ((l.get ⟨j, hj⟩).2) fn = some p →
      ∀ f r s, p.data[f]? = some r → p.joint_scales[f]? = some s → r.2.2 ≠ 0 →
        occGet emptyOcc f r.1 r.2.1 = false ∧
        ∀ d ∈ (l.take j).flatMap (fun e => trackClaims fn f e.2),
          ¬ withinDisk r.1 r.2.1 d := by
  intro j hj p hpose f r s hr hs hv
  refine ⟨rfl, ?_⟩
  intro d hd
  have hej : l[j]? = some (l.get ⟨j, hj⟩) := by
    rw [List.get_eq_getElem]
    exact List.getElem?_eq_getElem hj
  obtain ⟨hi_lt, hi_map⟩ := hl j _ hej
  obtain ⟨ti, hti, htieq⟩ := Option.map_eq_some'.mp hi_map
  rw [← htieq, trackPose_thresholdTrack] at hpose
  obtain ⟨pi, hpi, hpieq⟩ := Option.map_eq_some'.mp hpose
  subst hpieq
  dsimp only at hr hs
  rw [List.getElem?_map] at hr
  obtain ⟨r0, hr0, hr0eq⟩ := Option.map_eq_some'.mp hr
  have hr0r : r0 = r := by
    have h2 : (thresholdRow kpt r0).2.2 ≠ 0 := by
      rw [hr0eq]
      exact hv
    exact (thresholdRow_nonzero kpt r0 h2).symm.trans hr0eq
  rw [hr0r] at hr0
  have hrowAt_i : rowAt fn f ti = some (r, s) := by
    unfold rowAt
    rw [hpi]
    dsimp only
    rw [hr0, hs]
  obtain ⟨e', he', hde⟩ := List.mem_flatMap.mp hd
  obtain ⟨j', hj'e⟩ := List.mem_iff_getElem?.mp he'
  have hj'lt : j' < j := by
    by_contra hcon
    rw [List.getElem?_take, if_neg hcon] at hj'e
    simp at hj'e
  have hj'l : l[j']? = some e' := by
    have h0 := hj'e
    rw [List.getElem?_take, if_pos hj'lt] at h0
    exact h0
  obtain ⟨hi'_lt, hi'_map⟩ := hl j' e' hj'l
  obtain ⟨ti', hti', hti'eq⟩ := Option.map_eq_some'.mp hi'_map
  rw [← hti'eq] at hde
  have hclaims : ∀ dd ∈ trackClaims fn f (thresholdTrack kpt fn ti'),
      ∃ r' s', rowAt fn f ti' = some (r', s') ∧ r'.2.2 ≠ 0 ∧ dd = rowDisk r' s' := by
    intro dd hdd
    unfold trackClaims at hdd
    rw [trackPose_thresholdTrack] at hdd
    cases hpi' : trackPose ti' fn with
    | none =>
      rw [hpi'] at hdd
      simp at hdd
    | some pi' =>
      rw [hpi'] at hdd
      simp only [Option.map_some'] at hdd
      unfold poseClaims at hdd
      dsimp only at hdd
      rw [List.getElem?_map] at hdd
      cases hr' : pi'.data[f]? with
      | none =>
        rw [hr'] at hdd
        simp at hdd
      | some r0' =>
        rw [hr'] at hdd
        simp only [Option.map_some'] at hdd
        cases hs' : pi'.joint_scales[f]? with
        | none =>
          rw [hs'] at hdd
          simp at hdd
        | some s' =>
          rw [hs'] at hdd
          dsimp only at hdd
          by_cases hz : (thresholdRow kpt r0').2.2 = 0
          · rw [if_pos hz] at hdd
            simp at hdd
          · rw [if_neg hz] at hdd
            simp only [List.mem_singleton] at hdd
            have hkeep := thresholdRow_nonzero kpt r0' hz
            rw [hkeep] at hdd hz
            refine ⟨r0', s', ?_, hz, hdd⟩
            unfold rowAt
            rw [hpi']
            dsimp only
            rw [hr', hs']
  obtain ⟨r', s', hrow', hr'0, hdeq⟩ := hclaims d hde
  have hne_idx : (l.get ⟨j, hj⟩).1 ≠ e'.1 :=
    nodup_fst_ne l hndl j j' _ e' hej hj'l (by omega)
  have hget_i : tracks.get ⟨(l.get ⟨j, hj⟩).1, hi_lt⟩ = ti := by
    have h0 := List.getElem?_eq_getElem hi_lt
    rw [hti] at h0
    rw [List.get_eq_getElem]
    exact Option.some_inj.mp h0.symm
  have hget_i' : tracks.get ⟨e'.1, hi'_lt⟩ = ti' := by
    have h0 := List.getElem?_eq_getElem hi'_lt
    rw [hti'] at h0
    rw [List.get_eq_getElem]
    exact Option.some_inj.mp h0.symm
  have hf_max : f < maxLen fn tracks := by
    have h1 : f < pi.data.length := (List.getElem?_eq_some.mp hr0).1
    have h2 : pi.data.length ≤ maxLen fn tracks :=
      maxLen_bound fn tracks ti pi (mem_of_getElem?' _ _ _ hti) hpi
    omega
  have hpair := hcf (l.get ⟨j, hj⟩).1 hi_lt e'.1 hi'_lt f hf_max hne_idx
  rw [hget_i, hget_i', hrowAt_i, hrow'] at hpair
  unfold pairOK at hpair
  dsimp only at hpair
  rw [if_neg hv, if_neg hr'0] at hpair
  rw [hdeq]
  exact of_decide_eq_true hpair

theorem soft_nms_conflict_free (kpt : ℚ) (fn : ℤ) (tracks : List Track)
    (hnd : ∀ t ∈ tracks, (t.frame_pose.map Prod.fst).Nodup)
    (hcf : ConflictFree fn tracks) :
    soft_nms kpt fn tracks fn = tracks.map (thresholdTrack kpt fn) := by
  by_cases hT : tracks = []
  · subst hT
    rfl
  rw [soft_nms_ne kpt fn tracks fn hT]
  have hl : ∀ (j : ℕ) (e : ℕ × Track),
      (sortDesc (fun e => trackScore (1 / 100) fn e.2)
        (idxFrom 0 (tracks.map (thresholdTrack kpt fn))))[j]? = some e →
      e.1 < tracks.length ∧ (tracks[e.1]?).map (thresholdTrack kpt fn) = some e.2 := by
    intro j e he
    have hm : e ∈ idxFrom 0 (tracks.map (thresholdTrack kpt fn)) :=
      (sortDesc_perm _ _).subset (mem_of_getElem?' _ j e he)
    obtain ⟨m, hm1, hm2⟩ := (mem_idxFrom _ 0 e).mp hm
    have hme : m = e.1 := by omega
    rw [hme] at hm2
    constructor
    · have h1 := (List.getElem?_eq_some.mp hm2).1
      simpa using h1
    · rw [← List.getElem?_map]
      exact hm2
  have hnd_sfst : ((sortDesc (fun e => trackScore (1 / 100) fn e.2)
      (idxFrom 0 (tracks.map (thresholdTrack kpt fn)))).map Prod.fst).Nodup := by
    have h1 := (sortDesc_perm (fun e => trackScore (1 / 100) fn e.2)
      (idxFrom 0 (tracks.map (thresholdTrack kpt fn)))).map Prod.fst
    rw [idxFrom_map_fst, List.length_map, ← List.range_eq_range'] at h1
    exact h1.nodup_iff.mpr (List.nodup_range _)
  have hnd1 : ∀ e ∈ sortDesc (fun e => trackScore (1 / 100) fn e.2)
      (idxFrom 0 (tracks.map (thresholdTrack kpt fn))),
      ((e.2).frame_pose.map Prod.fst).Nodup := by
    intro e he
    obtain ⟨j, hje⟩ := List.mem_iff_getElem?.mp he
    obtain ⟨hi_lt, hi_map⟩ := hl j e hje
    obtain ⟨ti, hti, htieq⟩ := Option.map_eq_some'.mp hi_map
    rw [← htieq, thresholdTrack_fsts]
    exact hnd ti (mem_of_getElem?' _ _ _ hti)
  have hstable := sweepTracks_stable fn (sortDesc (fun e => trackScore (1 / 100) fn e.2)
      (idxFrom 0 (tracks.map (thresholdTrack kpt fn)))) emptyOcc hnd1
    (stab_of_conflict_free kpt fn tracks hcf _ hl hnd_sfst)
  rw [hstable]
  have hLL : tracks.length = (tracks.map (thresholdTrack kpt fn)).length :=
    (List.length_map _ _).symm
  rw [hLL, reassemble_perm (tracks.map (thresholdTrack kpt fn)) _ (sortDesc_perm _ _),
    List.map_map]
  apply List.map_congr_left
  intro t _
  simp only [Function.comp_apply]
  exact thresholdTrack_idem kpt fn t

/-- Counterexample to C5 as stated: on `[c5X, c5Y, c5Z]` the weak but
high-scoring keypoint of X survives the low threshold 1/10 and its large
scale-10 claim suppresses both Y and Z (1 positive keypoint), while the
higher threshold 1/5 removes X before the sweep, Y's small claim cannot
reach Z, and 2 keypoints stay positive: raising the threshold increases
the retained-keypoint count. -/
theorem claim_C5_threshold_monotone_counterexample :
    ¬ (countPositive 1 (soft_nms (1 / 5) 1 [c5X, c5Y, c5Z] 1)
      ≤ countPositive 1 (soft_nms (1 / 10) 1 [c5X, c5Y, c5Z] 1)) := by
  with_unfolding_all decide

/-- C5 (amended): on conflict-free input — no keypoint of one track lies
inside the exclusion disk a same-channel keypoint of another track claims
— the sweep suppresses nothing, `soft_nms` reduces to the keypoint
threshold pass, and raising the threshold never increases the number of
keypoints with positive confidence. -/
theorem claim_C5_threshold_monotone_amended (kl kh : ℚ) (fn : ℤ)
    (tracks : List Track) (hkk : kl ≤ kh)
    (hnd : ∀ t ∈ tracks, (t.frame_pose.map Prod.fst).Nodup)
    (hcf : ConflictFree fn tracks) :
    countPositive fn (soft_nms kh fn tracks fn)
      ≤ countPositive fn (soft_nms kl fn tracks fn) := by
  rw [soft_nms_conflict_free kh fn tracks hnd hcf,
    soft_nms_conflict_free kl fn tracks hnd hcf]
  unfold countPositive
  rw [List.map_map, List.map_map]
  apply List.sum_le_sum
  intro t _
  simp only [Function.comp_apply]
  rw [trackPose_thresholdTrack, trackPose_thresholdTrack]
  cases hp : trackPose t fn with
  | none => simp
  | some p =>
    simp only [Option.map_some']
    rw [← List.countP_eq_length_filter, ← List.countP_eq_length_filter,
      List.countP_map, List.countP_map]
    apply List.countP_mono_left
    intro r _ hpos
    simp only [Function.comp_apply, decide_eq_true_iff] at hpos ⊢
    rcases thresholdRow_cases kh r with ⟨hz, _⟩ | ⟨hkeep, hge⟩
    · rw [hz] at hpos
      simp at hpos
    · rw [hkeep] at hpos
      have hklr : thresholdRow kl r = r := by
        unfold thresholdRow
        rw [if_neg (not_lt.mpr (le_trans hkk hge))]
      rw [hklr]
      exact hpos

/-- Witness for the amended C5: two far-apart tracks (conflict-free); the
middle-confidence keypoint survives the 1/10 threshold but not the 1/5
one, and the counts obey the inequality. -/
theorem claim_C5_threshold_monotone_amended_witness :
    ((1 : ℚ) / 10 ≤ 1 / 5) ∧ ConflictFree 1 [cw5A, cw5B] ∧
    countPositive 1 (soft_nms (1 / 5) 1 [cw5A, cw5B] 1)
      ≤ countPositive 1 (soft_nms (1 / 10) 1 [cw5A, cw5B] 1) :=
  ⟨by with_unfolding_all decide, by with_unfolding_all decide,
   claim_C5_threshold_monotone_amended (1 / 10) (1 / 5) 1 [cw5A, cw5B]
     (by with_unfolding_all decide)
     (by with_unfolding_all decide)
     (by with_unfolding_all decide)⟩


theorem idxFrom_succ : ∀ (l : List α) (n : ℕ),
    idxFrom (n + 1) l = (idxFrom n l).map (fun e => (e.1 + 1, e.2))
  | [], _ => rfl
  | a :: as, n => by
    simp only [idxFrom, List.map_cons]
    exact congrArg _ (idxFrom_succ as (n + 1))

theorem splitAttributeAux_spec (K : ℕ) (fn : ℤ) (origIds : List ℤ) :
    ∀ (anns : List TrackingAnn) (act : List Track) (nid : ℤ),
    (∀ a ∈ anns, a.id_ = -1 ∨ a.id_ ∈ origIds) →
    (∀ id ∈ origIds, id < nid) →
    (-1 < nid) →
    (∀ t ∈ act, t.id_ ≠ -1) →
    splitAttributeAux K fn origIds anns act nid
      = some (act.map (fun t => ⟨t.id_, t.frame_pose ++
            ((anns.filter (fun a => a.id_ == t.id_)).map
              (fun a => (fn, extractPose K a)))⟩)
          ++ (idxFrom 0 (anns.filter (fun a => a.id_ == -1))).map
            (fun e => (⟨nid + e.1, [(fn, extractPose K e.2)]⟩ : Track)),
        nid + (anns.filter (fun a => a.id_ == -1)).length,
        assignIds nid anns)
  | [], act, nid, _, _, _, _ => by
    unfold splitAttributeAux
    simp only [List.filter_nil, List.map_nil, List.append_nil, List.length_nil,
      Nat.cast_zero, add_zero, idxFrom, assignIds]
    rw [(List.map_congr_left (fun t _ => rfl) :
        act.map (fun t => (⟨t.id_, t.frame_pose⟩ : Track)) = act.map (fun t => t)),
      List.map_id']
  | a :: rest, act, nid, ha, hb, hc, hd => by
    unfold splitAttributeAux
    by_cases hm1 : a.id_ = -1
    · rw [if_pos hm1]
      rw [splitAttributeAux_spec K fn origIds rest
        (act ++ [(⟨nid, [(fn, extractPose K a)]⟩ : Track)]) (nid + 1)
        (fun x hx => ha x (by simp [hx]))
        (fun id h => by have := hb id h; omega)
        (by omega)
        (by
          intro t ht
          rcases List.mem_append.mp ht with h | h
          · exact hd t h
          · simp only [List.mem_singleton] at h
            subst h
            dsimp only
            omega)]
      dsimp only
      have hfA : (a :: rest).filter (fun x => x.id_ == (-1 : ℤ))
          = a :: rest.filter (fun x => x.id_ == (-1 : ℤ)) :=
        List.filter_cons_of_pos (by simp [hm1])
      have hAN : assignIds nid (a :: rest)
          = { a with id_ := nid } :: assignIds (nid + 1) rest := by
        rw [assignIds, if_pos hm1]
      have hnewT : (⟨nid, ([(fn, extractPose K a)] : List (ℤ × Pose)) ++
            ((rest.filter (fun x => x.id_ == (nid : ℤ))).map
              (fun x => (fn, extractPose K x)))⟩ : Track)
          = (⟨nid, [(fn, extractPose K a)]⟩ : Track) := by
        have hfe : rest.filter (fun x => x.id_ == (nid : ℤ)) = [] := by
          rw [List.filter_eq_nil_iff]
          intro x hx
          simp only [beq_iff_eq]
          rcases ha x (by simp [hx]) with h | h
          · intro hcon
            rw [hcon] at h
            omega
          · intro hcon
            have := hb x.id_ h
            omega
        rw [hfe, List.map_nil, List.append_nil]
      have hmapU : act.map (fun t => (⟨t.id_, t.frame_pose ++
            (((a :: rest).filter (fun x => x.id_ == t.id_)).map
              (fun x => (fn, extractPose K x)))⟩ : Track))
          = act.map (fun t => (⟨t.id_, t.frame_pose ++
            ((rest.filter (fun x => x.id_ == t.id_)).map
              (fun x => (fn, extractPose K x)))⟩ : Track)) := by
        apply List.map_congr_left
        intro t ht
        have hfc : (a :: rest).filter (fun x => x.id_ == t.id_)
            = rest.filter (fun x => x.id_ == t.id_) :=
          List.filter_cons_of_neg (by
            simp only [beq_iff_eq]
            intro hcon
            exact hd t ht (by rw [← hcon, hm1]))
        rw [hfc]
      have hNT : (idxFrom 0 ((a :: rest).filter (fun x => x.id_ == (-1 : ℤ)))).map
            (fun e => (⟨nid + e.1, [(fn, extractPose K e.2)]⟩ : Track))
          = (⟨nid, [(fn, extractPose K a)]⟩ : Track)
            :: (idxFrom 0 (rest.filter (fun x => x.id_ == (-1 : ℤ)))).map
              (fun e => (⟨nid + 1 + e.1, [(fn, extractPose K e.2)]⟩ : Track)) := by
        rw [hfA]
        simp only [idxFrom, List.map_cons]
        congr 1
        · dsimp only
          congr 1
          simp
        · rw [idxFrom_succ, List.map_map]
          apply List.map_congr_left
          intro e _
          simp only [Function.comp_apply]
          congr 1
          push_cast
          ring
      rw [hNT, hmapU, hAN, hfA, List.length_cons, List.map_append]
      simp only [List.map_cons, List.map_nil]
      rw [hnewT, List.append_assoc, List.singleton_append]
      have hcount : nid + 1 + ((rest.filter (fun x => x.id_ == (-1 : ℤ))).length : ℤ)
          = nid + (((rest.filter (fun x => x.id_ == (-1 : ℤ))).length + 1 : ℕ) : ℤ) := by
        push_cast
        ring
      rw [hcount]
    · rw [if_neg hm1]
      have hmem : a.id_ ∈ origIds := (ha a (by simp)).resolve_left hm1
      rw [if_pos hmem]
      rw [splitAttributeAux_spec K fn origIds rest
        (act.map (fun t =>
          if t.id_ = a.id_ then ⟨t.id_, t.frame_pose ++ [(fn, extractPose K a)]⟩
          else t)) nid
        (fun x hx => ha x (by simp [hx])) hb hc
        (by
          intro t ht
          obtain ⟨t0, ht0, rfl⟩ := List.mem_map.mp ht
          by_cases h : t0.id_ = a.id_
          · rw [if_pos h]
            exact hd t0 ht0
          · rw [if_neg h]
            exact hd t0 ht0)]
      dsimp only
      have hfA2 : (a :: rest).filter (fun x => x.id_ == (-1 : ℤ))
          = rest.filter (fun x => x.id_ == (-1 : ℤ)) :=
        List.filter_cons_of_neg (by simp [hm1])
      have hAN2 : assignIds nid (a :: rest) = a :: assignIds nid rest := by
        rw [assignIds, if_neg hm1]
      have hmap2 : (act.map (fun t =>
            if t.id_ = a.id_ then ⟨t.id_, t.frame_pose ++ [(fn, extractPose K a)]⟩
            else t)).map (fun t => (⟨t.id_, t.frame_pose ++
            ((rest.filter (fun x => x.id_ == t.id_)).map
              (fun x => (fn, extractPose K x)))⟩ : Track))
          = act.map (fun t => (⟨t.id_, t.frame_pose ++
            (((a :: rest).filter (fun x => x.id_ == t.id_)).map
              (fun x => (fn, extractPose K x)))⟩ : Track)) := by
        rw [List.map_map]
        apply List.map_congr_left
        intro t ht
        simp only [Function.comp_apply]
        by_cases hteq : t.id_ = a.id_
        · rw [if_pos hteq]
          dsimp only
          have hfc : (a :: rest).filter (fun x => x.id_ == t.id_)
              = a :: rest.filter (fun x => x.id_ == t.id_) :=
            List.filter_cons_of_pos (by simp [hteq])
          rw [hfc]
          simp only [List.map_cons]
          congr 1
          rw [List.append_assoc, List.singleton_append]
        · rw [if_neg hteq]
          have hfc : (a :: rest).filter (fun x => x.id_ == t.id_)
              = rest.filter (fun x => x.id_ == t.id_) :=
            List.filter_cons_of_neg (by
              simp only [beq_iff_eq]
              intro hcon
              exact hteq hcon.symm)
          rw [hfc]
      rw [hmap2, hfA2, hAN2]

/-- C6: the split-and-attribute loop refines its specification.  Under the
data-model invariants — the fresh-id counter exceeds every active id, ids
are nonnegative and distinct, and every returned pose is unassigned or
carries an active id — the loop succeeds and returns exactly: every active
track extended, in order, by the current-frame extraction (first K
keypoints) of each pose carrying its id; new single-entry tracks with
consecutive fresh ids appended behind them, one per unassigned pose; the
advanced id counter; and the pose list with the fresh ids written back in
order. -/
theorem claim_C6_split_attribute (K : ℕ) (fn : ℤ) (act : List Track) (nid : ℤ)
    (anns : List TrackingAnn)
    (hnid : -1 < nid)
    (hid : ∀ t ∈ act, -1 < t.id_ ∧ t.id_ < nid)
    (_hnodup : (act.map Track.id_).Nodup)
    (hanns : ∀ a ∈ anns, a.id_ = -1 ∨ a.id_ ∈ act.map Track.id_) :
    splitAttribute K fn act nid anns = some (splitAttributeSpec K fn act nid anns) := by
  unfold splitAttribute splitAttributeSpec
  rw [splitAttributeAux_spec K fn (act.map Track.id_) anns act nid hanns
    (by
      intro id hmem
      obtain ⟨t, ht, rfl⟩ := List.mem_map.mp hmem
      exact (hid t ht).2)
    hnid
    (by
      intro t ht h
      have := (hid t ht).1
      omega)]

/-- Witness for C6, the claim's scenario: empty active set, one unassigned
pose — after the step there is exactly one track, with one entry at the
current frame, and the returned pose carries that track's id 0. -/
theorem claim_C6_split_attribute_witness :
    ((-1 : ℤ) < 0) ∧
    splitAttribute 1 5 [] 0 [cw6] = some (splitAttributeSpec 1 5 [] 0 [cw6]) ∧
    splitAttributeSpec 1 5 [] 0 [cw6]
      = ([⟨0, [(5, ⟨[(3, 4, 1 / 2)], [2]⟩)]⟩], 1, [⟨0, [(3, 4, 1 / 2)], [2]⟩]) :=
  ⟨by decide,
   claim_C6_split_attribute 1 5 [] 0 [cw6]
     (by decide)
     (by intro t ht; simp at ht)
     (by decide)
     (by
       intro a ha
       rw [List.mem_singleton] at ha
       subst ha
       left
       rfl),
   by with_unfolding_all decide⟩

theorem transition_viable {α : Type} (N K : ℕ) (cg : List ℤ) (kpt : ℚ)
    (gen : α → List TrackingAnn → List TrackingAnn) (fields : α)
    (s : DecoderState) (ia : Option (List TrackingAnn))
    (s' : DecoderState) (out : List (ℤ × Pose))
    (h : transition N K cg kpt gen fields s ia = some (s', out)) :
    s'.frame_number = s.frame_number + 1 ∧
      ∀ t ∈ s'.active, track_is_viable N s'.frame_number t = true := by
  unfold transition at h
  dsimp only at h
  cases hsp : splitAttribute K (s.frame_number + 1) s.active s.next_track_id
      (gen fields (s.active.filterMap (buildSeed K cg (s.frame_number + 1)))) with
  | none =>
    rw [hsp] at h
    simp at h
  | some trip =>
    obtain ⟨act1, nid1, anns1⟩ := trip
    rw [hsp] at h
    simp only [Option.some.injEq, Prod.mk.injEq] at h
    obtain ⟨hs', _⟩ := h
    subst hs'
    refine ⟨rfl, ?_⟩
    intro t ht
    exact List.of_mem_filter ht

theorem iterTransition_frame {α : Type} (N K : ℕ) (cg : List ℤ) (kpt : ℚ) :
    ∀ (steps : List ((α → List TrackingAnn → List TrackingAnn) × α))
      (s s' : DecoderState),
    iterTransition N K cg kpt steps s = some s' →
      s'.frame_number = s.frame_number + steps.length
  | [], s, s', h => by
    simp only [iterTransition, Option.some.injEq] at h
    subst h
    simp
  | g :: gs, s, s', h => by
    unfold iterTransition at h
    cases htr : transition N K cg kpt g.1 g.2 s none with
    | none =>
      rw [htr] at h
      simp at h
    | some p =>
      obtain ⟨s1, o⟩ := p
      rw [htr] at h
      dsimp only at h
      have ih := iterTransition_frame N K cg kpt gs s1 s' h
      have h1 := (transition_viable N K cg kpt g.1 g.2 s none s1 o htr).1
      rw [ih, h1]
      simp only [List.length_cons]
      push_cast
      ring

theorem iter_last_viable {α : Type} (N K : ℕ) (cg : List ℤ) (kpt : ℚ) :
    ∀ (steps : List ((α → List TrackingAnn → List TrackingAnn) × α))
      (s s' : DecoderState),
    steps ≠ [] → iterTransition N K cg kpt steps s = some s' →
      ∀ t ∈ s'.active, track_is_viable N s'.frame_number t = true
  | [], _, _, hne, _ => absurd rfl hne
  | [g], s, s', _, h => by
    unfold iterTransition at h
    cases htr : transition N K cg kpt g.1 g.2 s none with
    | none =>
      rw [htr] at h
      simp at h
    | some p =>
      obtain ⟨s1, o⟩ := p
      rw [htr] at h
      simp only [iterTransition, Option.some.injEq] at h
      subst h
      exact (transition_viable N K cg kpt g.1 g.2 s none s1 o htr).2
  | g :: g2 :: gs, s, s', _, h => by
    unfold iterTransition at h
    cases htr : transition N K cg kpt g.1 g.2 s none with
    | none =>
      rw [htr] at h
      simp at h
    | some p =>
      obtain ⟨s1, o⟩ := p
      rw [htr] at h
      dsimp only at h
      exact iter_last_viable N K cg kpt (g2 :: gs) s1 s' (by simp) h

/-- C7: pruning establishes the viability invariant, and it is live.
(i) After every successful frame transition, every track in the active set
satisfies the viability predicate at the new current frame.  (ii) Over any
run of transitions from a state, a track all of whose recorded detections
are from the starting frame or earlier can still be active only if the run
has at most N transitions: with zero new detections it is gone after more
than N transitions. -/
theorem claim_C7_pruning {α : Type} (N K : ℕ) (cg : List ℤ) (kpt : ℚ) :
    (∀ (gen : α → List TrackingAnn → List TrackingAnn) (fields : α)
       (s : DecoderState) (ia : Option (List TrackingAnn))
       (s' : DecoderState) (out : List (ℤ × Pose)),
     transition N K cg kpt gen fields s ia = some (s', out) →
       ∀ t ∈ s'.active, track_is_viable N s'.frame_number t = true) ∧
    (∀ (steps : List ((α → List TrackingAnn → List TrackingAnn) × α))
       (s s' : DecoderState),
     iterTransition N K cg kpt steps s = some s' →
       ∀ t ∈ s'.active, (∀ e ∈ t.frame_pose, e.1 ≤ s.frame_number) →
         steps.length ≤ N) := by
  constructor
  · intro gen fields s ia s' out h
    exact (transition_viable N K cg kpt gen fields s ia s' out h).2
  · intro steps s s' hit t ht hold
    cases steps with
    | nil => exact Nat.zero_le N
    | cons g gs =>
      have hv := iter_last_viable N K cg kpt (g :: gs) s s' (by simp) hit t ht
      unfold track_is_viable at hv
      rw [List.any_eq_true] at hv
      obtain ⟨e, he, hee⟩ := hv
      rw [decide_eq_true_iff] at hee
      have hfr := iterTransition_frame N K cg kpt (g :: gs) s s' hit
      have h1 := hold e he
      have hlen : (((g :: gs).length : ℕ) : ℤ) ≤ (N : ℤ) := by
        rw [hfr] at hee
        omega
      exact_mod_cast hlen

/-- Witness for C7: one concrete transition from the empty state with one
new detection; the resulting single active track satisfies the viability
predicate at the new frame. -/
theorem claim_C7_pruning_witness :
    (transition 3 1 [0, -1] (1 / 10) (fun (_ : Unit) _ => [cw6]) () ⟨0, [], 0⟩ none
      = some (⟨1, [⟨0, [(1, ⟨[(3, 4, 1 / 2)], [2]⟩)]⟩], 1⟩,
              [(0, ⟨[(3, 4, 1 / 2)], [2]⟩)])) ∧
    ∀ t ∈ (⟨1, [⟨0, [(1, ⟨[(3, 4, 1 / 2)], [2]⟩)]⟩], 1⟩ : DecoderState).active,
      track_is_viable 3 (⟨1, [⟨0, [(1, ⟨[(3, 4, 1 / 2)], [2]⟩)]⟩], 1⟩
        : DecoderState).frame_number t = true :=
  ⟨by with_unfolding_all decide,
   (claim_C7_pruning 3 1 [0, -1] (1 / 10)).1 (fun (_ : Unit) _ => [cw6]) ()
     ⟨0, [], 0⟩ none ⟨1, [⟨0, [(1, ⟨[(3, 4, 1 / 2)], [2]⟩)]⟩], 1⟩
     [(0, ⟨[(3, 4, 1 / 2)], [2]⟩)] (by with_unfolding_all decide)⟩
